import Mathlib

/-
  Verification of the QuickFF potential-energy model engine (quickff/model.py).

  The development shallowly embeds the data model and operations of the source:
  numeric values are real numbers, coordinate arrays are functions from an atom
  index and a Cartesian component to the reals, and the flattened arrays used by
  the harmonic potential are functions on a finite index type.  External
  capabilities (the bond-length internal coordinate, the Term functional forms,
  the DataArray statistics and the FFTable accessors) are modelled from the
  specification and marked as such in their doc comments.
-/

open scoped BigOperators

/-- Cartesian coordinates: atom index to 3-component position. -/
abbrev Coords := ℕ → Fin 3 → ℝ

/-- The degree unit used throughout the source (molmod.units.deg). -/
noncomputable def deg : ℝ := Real.pi / 180

lemma deg_pos : 0 < deg := by unfold deg; positivity

lemma deg_ne_zero : deg ≠ 0 := ne_of_gt deg_pos

/-- Python float modulo for a positive divisor: a % b = a - b*floor(a/b). -/
noncomputable def fmod (a b : ℝ) : ℝ := a - b * (⌊a / b⌋ : ℤ)

lemma fmod_eq_self (a b : ℝ) (h0 : 0 ≤ a) (h1 : a < b) : fmod a b = a := by
  unfold fmod
  have hb : 0 < b := lt_of_le_of_lt h0 h1
  have hfl : ⌊a / b⌋ = 0 := by
    rw [Int.floor_eq_zero_iff]
    exact ⟨by positivity, by rw [div_lt_one hb]; exact h1⟩
  rw [hfl]; simp

lemma fmod_self (b : ℝ) (hb : b ≠ 0) : fmod b b = 0 := by
  unfold fmod
  rw [div_self hb]
  simp

/-- Modelled from the spec: the error function used by the Gaussian-charge
Coulomb potential (math.erf, an external capability). -/
noncomputable def erf (x : ℝ) : ℝ :=
  (2 / Real.sqrt Real.pi) * ∫ t in (0:ℝ)..x, Real.exp (-(t ^ 2))

/-- Modelled from the spec: the value of the bond-length internal coordinate
over atoms i and j (the external InternalCoordinate capability applied to
bond_length), the Euclidean distance between the two atom positions. -/
noncomputable def bond_value (i j : ℕ) (c : Coords) : ℝ :=
  Real.sqrt ((c i 0 - c j 0) ^ 2 + (c i 1 - c j 1) ^ 2 + (c i 2 - c j 2) ^ 2)

/-- Modelled from the spec: the gradient of the bond-length internal coordinate,
nonzero only at atoms i and j. -/
noncomputable def bond_grad (i j : ℕ) (c : Coords) : ℕ → Fin 3 → ℝ :=
  fun a t =>
    if a = i then (c i t - c j t) / bond_value i j c
    else if a = j then -((c i t - c j t) / bond_value i j c)
    else 0

/-- Modelled from the spec: the Hessian of the bond-length internal coordinate,
with a nonzero block at atoms i and j. -/
noncomputable def bond_hess (i j : ℕ) (c : Coords) : ℕ → Fin 3 → ℕ → Fin 3 → ℝ :=
  fun a s b t =>
    ((if a = i then (1:ℝ) else if a = j then -1 else 0) *
     (if b = i then (1:ℝ) else if b = j then -1 else 0)) *
    ((if s = t then (1:ℝ) else 0) / bond_value i j c -
      (c i s - c j s) * (c i t - c j t) / (bond_value i j c) ^ 3)

/-! ## Harmonic potential (model.py lines 664-689) -/

/-- HarmonicPot: second-order Taylor expansion about a reference geometry.
The coordinate arrays are represented in flattened form over `Fin d`
(`d = 3*natoms`), exactly as the source reshapes them. -/
structure HarmonicPot (d : ℕ) where
  kind : String
  coords0 : Fin d → ℝ
  energy0 : ℝ
  grad0 : Fin d → ℝ
  hess0 : Fin d → Fin d → ℝ

/-- energy0 + grad0 . dx + 0.5 * dx . (hess0 . dx), dx = coords - coords0. -/
noncomputable def HarmonicPot.calc_energy {d : ℕ} (p : HarmonicPot d)
    (coords : Fin d → ℝ) : ℝ :=
  p.energy0 + (∑ i, p.grad0 i * (coords i - p.coords0 i)) +
    0.5 * ∑ i, (coords i - p.coords0 i) *
      ∑ j, p.hess0 i j * (coords j - p.coords0 j)

/-- grad0 + hess0 . dx. -/
noncomputable def HarmonicPot.calc_gradient {d : ℕ} (p : HarmonicPot d)
    (coords : Fin d → ℝ) : Fin d → ℝ :=
  fun i => p.grad0 i + ∑ j, p.hess0 i j * (coords j - p.coords0 j)

/-- The constant reference Hessian. -/
noncomputable def HarmonicPot.calc_hessian {d : ℕ} (p : HarmonicPot d)
    (coords : Fin d → ℝ) : Fin d → Fin d → ℝ :=
  p.hess0

/-! ## Pairwise potentials (model.py lines 692-967) -/

/-- CoulPointPot: Coulomb potential between point charges. -/
structure CoulPointPot where
  charges : List ℝ
  scales : Fin 3 → ℝ
  scaled_pairs : Fin 3 → List (ℕ × ℕ)
  shift : ℝ

/-- Scale lookup shared verbatim by the four pairwise potentials
(model.py lines 706-714 and its three copies): check the 1-2, 1-3, 1-4
pair lists in order, treating (i,j) and (j,i) alike, default 1.0. -/
def resolve_scale (scales : Fin 3 → ℝ) (pairs : Fin 3 → List (ℕ × ℕ))
    (i j : ℕ) : ℝ :=
  if (i, j) ∈ pairs 0 ∨ (j, i) ∈ pairs 0 then scales 0
  else if (i, j) ∈ pairs 1 ∨ (j, i) ∈ pairs 1 then scales 1
  else if (i, j) ∈ pairs 2 ∨ (j, i) ∈ pairs 2 then scales 2
  else 1

def CoulPointPot.get_scale (p : CoulPointPot) (i j : ℕ) : ℝ :=
  resolve_scale p.scales p.scaled_pairs i j

/-- shift + sum over pairs j < i (the inner loop breaks at j >= i) of
qi*qj/r*scale, skipping pairs whose scale is exactly 0. -/
noncomputable def CoulPointPot.calc_energy (p : CoulPointPot) (c : Coords) : ℝ :=
  p.shift + ∑ i ∈ Finset.range p.charges.length, ∑ j ∈ Finset.range i,
    (if p.get_scale i j = 0 then 0
     else p.charges.getD i 0 * p.charges.getD j 0 / bond_value i j c *
       p.get_scale i j)

noncomputable def CoulPointPot.calc_gradient (p : CoulPointPot) (c : Coords) :
    ℕ → Fin 3 → ℝ :=
  fun a t => ∑ i ∈ Finset.range p.charges.length, ∑ j ∈ Finset.range i,
    (if p.get_scale i j = 0 then 0
     else -(p.charges.getD i 0) * p.charges.getD j 0 / (bond_value i j c) ^ 2 *
       bond_grad i j c a t * p.get_scale i j)

noncomputable def CoulPointPot.calc_hessian (p : CoulPointPot) (c : Coords) :
    ℕ → Fin 3 → ℕ → Fin 3 → ℝ :=
  fun a s b t => ∑ i ∈ Finset.range p.charges.length, ∑ j ∈ Finset.range i,
    (if p.get_scale i j = 0 then 0
     else p.charges.getD i 0 * p.charges.getD j 0 / (bond_value i j c) ^ 2 *
       (2.0 / bond_value i j c * (bond_grad i j c a s * bond_grad i j c b t) -
         bond_hess i j c a s b t) * p.get_scale i j)

/-- Constructor: shift starts at 0.0; when a reference geometry is given the
shift becomes minus the unshifted energy there. -/
noncomputable def CoulPointPot.init (charges : List ℝ) (scales : Fin 3 → ℝ)
    (scaled_pairs : Fin 3 → List (ℕ × ℕ)) :
    Option Coords → CoulPointPot
  | none => ⟨charges, scales, scaled_pairs, 0⟩
  | some c0 => ⟨charges, scales, scaled_pairs,
      -(CoulPointPot.calc_energy ⟨charges, scales, scaled_pairs, 0⟩ c0)⟩

/-- CoulGaussPot: Coulomb potential between gaussian charges. -/
structure CoulGaussPot where
  charges : List ℝ
  sigmas : List ℝ
  scales : Fin 3 → ℝ
  scaled_pairs : Fin 3 → List (ℕ × ℕ)
  shift : ℝ

def CoulGaussPot.get_scale (p : CoulGaussPot) (i j : ℕ) : ℝ :=
  resolve_scale p.scales p.scaled_pairs i j

noncomputable def CoulGaussPot.calc_energy (p : CoulGaussPot) (c : Coords) : ℝ :=
  p.shift + ∑ i ∈ Finset.range p.charges.length, ∑ j ∈ Finset.range i,
    (if p.get_scale i j = 0 then 0
     else
       p.get_scale i j * p.charges.getD i 0 * p.charges.getD j 0 /
           bond_value i j c *
         erf (bond_value i j c /
           Real.sqrt (p.sigmas.getD i 0 ^ 2 + p.sigmas.getD j 0 ^ 2)))

noncomputable def CoulGaussPot.calc_gradient (p : CoulGaussPot) (c : Coords) :
    ℕ → Fin 3 → ℝ :=
  fun a t => ∑ i ∈ Finset.range p.charges.length, ∑ j ∈ Finset.range i,
    (if p.get_scale i j = 0 then 0
     else
       let r := bond_value i j c
       let sigma := Real.sqrt (p.sigmas.getD i 0 ^ 2 + p.sigmas.getD j 0 ^ 2)
       let e := erf (r / sigma)
       let ex := Real.exp (-(r / sigma) ^ 2) / Real.sqrt Real.pi
       p.get_scale i j * p.charges.getD i 0 * p.charges.getD j 0 / r *
         (-e / r + 2.0 * ex / sigma) * bond_grad i j c a t)

noncomputable def CoulGaussPot.calc_hessian (p : CoulGaussPot) (c : Coords) :
    ℕ → Fin 3 → ℕ → Fin 3 → ℝ :=
  fun a s b t => ∑ i ∈ Finset.range p.charges.length, ∑ j ∈ Finset.range i,
    (if p.get_scale i j = 0 then 0
     else
       let r := bond_value i j c
       let sigma := Real.sqrt (p.sigmas.getD i 0 ^ 2 + p.sigmas.getD j 0 ^ 2)
       let e := erf (r / sigma)
       let ex := Real.exp (-(r / sigma) ^ 2) / Real.sqrt Real.pi
       let dVdr := (-e / r + 2.0 / sigma * ex) / r
       let d2Vdr2 := (e / r - 2 * ex / sigma) / r ^ 2 - 2 * ex / sigma ^ 3
       p.get_scale i j * p.charges.getD i 0 * p.charges.getD j 0 *
         (2 * d2Vdr2 * (bond_grad i j c a s * bond_grad i j c b t) +
           dVdr * bond_hess i j c a s b t))

noncomputable def CoulGaussPot.init (charges sigmas : List ℝ)
    (scales : Fin 3 → ℝ) (scaled_pairs : Fin 3 → List (ℕ × ℕ)) :
    Option Coords → CoulGaussPot
  | none => ⟨charges, sigmas, scales, scaled_pairs, 0⟩
  | some c0 => ⟨charges, sigmas, scales, scaled_pairs,
      -(CoulGaussPot.calc_energy ⟨charges, sigmas, scales, scaled_pairs, 0⟩ c0)⟩

/-- LennardJonesPot: Lennard-Jones van der Waals potential. -/
structure LennardJonesPot where
  sigmas : List ℝ
  epsilons : List ℝ
  scales : Fin 3 → ℝ
  scaled_pairs : Fin 3 → List (ℕ × ℕ)
  shift : ℝ

def LennardJonesPot.get_scale (p : LennardJonesPot) (i j : ℕ) : ℝ :=
  resolve_scale p.scales p.scaled_pairs i j

/-- Number of atoms iterated by the LJ/MM3 loops: the enumerated zip of
sigmas and epsilons. -/
def LennardJonesPot.npairs (p : LennardJonesPot) : ℕ :=
  (p.sigmas.zip p.epsilons).length

noncomputable def LennardJonesPot.calc_energy (p : LennardJonesPot)
    (c : Coords) : ℝ :=
  p.shift + ∑ i ∈ Finset.range p.npairs, ∑ j ∈ Finset.range i,
    (if p.get_scale i j = 0 then 0
     else
       let sigma := 0.5 * (p.sigmas.getD i 0 + p.sigmas.getD j 0)
       let epsilon := Real.sqrt (p.epsilons.getD i 0 * p.epsilons.getD j 0)
       let x := sigma / bond_value i j c
       4.0 * epsilon * (x ^ 12 - x ^ 6) * p.get_scale i j)

noncomputable def LennardJonesPot.calc_gradient (p : LennardJonesPot)
    (c : Coords) : ℕ → Fin 3 → ℝ :=
  fun a t => ∑ i ∈ Finset.range p.npairs, ∑ j ∈ Finset.range i,
    (if p.get_scale i j = 0 then 0
     else
       let sigma := 0.5 * (p.sigmas.getD i 0 + p.sigmas.getD j 0)
       let epsilon := Real.sqrt (p.epsilons.getD i 0 * p.epsilons.getD j 0)
       let x := sigma / bond_value i j c;
       -(24.0 * epsilon / sigma * (2.0 * x ^ 13 - x ^ 7) *
         bond_grad i j c a t * p.get_scale i j))

noncomputable def LennardJonesPot.calc_hessian (p : LennardJonesPot)
    (c : Coords) : ℕ → Fin 3 → ℕ → Fin 3 → ℝ :=
  fun a s b t => ∑ i ∈ Finset.range p.npairs, ∑ j ∈ Finset.range i,
    (if p.get_scale i j = 0 then 0
     else
       let sigma := 0.5 * (p.sigmas.getD i 0 + p.sigmas.getD j 0)
       let epsilon := Real.sqrt (p.epsilons.getD i 0 * p.epsilons.getD j 0)
       let x := sigma / bond_value i j c
       24.0 * epsilon / sigma ^ 2 * (26 * x ^ 14 - 7 * x ^ 8) *
           (bond_grad i j c a s * bond_grad i j c b t) * p.get_scale i j -
         24.0 * epsilon / sigma * (2 * x ^ 13 - x ^ 7) *
           bond_hess i j c a s b t * p.get_scale i j)

noncomputable def LennardJonesPot.init (sigmas epsilons : List ℝ)
    (scales : Fin 3 → ℝ) (scaled_pairs : Fin 3 → List (ℕ × ℕ)) :
    Option Coords → LennardJonesPot
  | none => ⟨sigmas, epsilons, scales, scaled_pairs, 0⟩
  | some c0 => ⟨sigmas, epsilons, scales, scaled_pairs,
      -(LennardJonesPot.calc_energy ⟨sigmas, epsilons, scales, scaled_pairs, 0⟩
          c0)⟩

/-- MM3BuckinghamPot: MM3-Buckingham van der Waals potential. -/
structure MM3BuckinghamPot where
  sigmas : List ℝ
  epsilons : List ℝ
  scales : Fin 3 → ℝ
  scaled_pairs : Fin 3 → List (ℕ × ℕ)
  shift : ℝ

def MM3BuckinghamPot.get_scale (p : MM3BuckinghamPot) (i j : ℕ) : ℝ :=
  resolve_scale p.scales p.scaled_pairs i j

def MM3BuckinghamPot.npairs (p : MM3BuckinghamPot) : ℕ :=
  (p.sigmas.zip p.epsilons).length

noncomputable def MM3BuckinghamPot.calc_energy (p : MM3BuckinghamPot)
    (c : Coords) : ℝ :=
  p.shift + ∑ i ∈ Finset.range p.npairs, ∑ j ∈ Finset.range i,
    (if p.get_scale i j = 0 then 0
     else
       let sigma := 0.5 * (p.sigmas.getD i 0 + p.sigmas.getD j 0)
       let epsilon := Real.sqrt (p.epsilons.getD i 0 * p.epsilons.getD j 0)
       let x := bond_value i j c / sigma
       p.get_scale i j * epsilon *
         (1.84e5 * Real.exp (-12.0 * x) - 2.25 / x ^ 6))

noncomputable def MM3BuckinghamPot.calc_gradient (p : MM3BuckinghamPot)
    (c : Coords) : ℕ → Fin 3 → ℝ :=
  fun a t => ∑ i ∈ Finset.range p.npairs, ∑ j ∈ Finset.range i,
    (if p.get_scale i j = 0 then 0
     else
       let sigma := 0.5 * (p.sigmas.getD i 0 + p.sigmas.getD j 0)
       let epsilon := Real.sqrt (p.epsilons.getD i 0 * p.epsilons.getD j 0)
       let x := bond_value i j c / sigma
       p.get_scale i j * epsilon / sigma *
         (-2.208e6 * Real.exp (-12.0 * x) + 13.5 / x ^ 7) *
         bond_grad i j c a t)

noncomputable def MM3BuckinghamPot.calc_hessian (p : MM3BuckinghamPot)
    (c : Coords) : ℕ → Fin 3 → ℕ → Fin 3 → ℝ :=
  fun a s b t => ∑ i ∈ Finset.range p.npairs, ∑ j ∈ Finset.range i,
    (if p.get_scale i j = 0 then 0
     else
       let sigma := 0.5 * (p.sigmas.getD i 0 + p.sigmas.getD j 0)
       let epsilon := Real.sqrt (p.epsilons.getD i 0 * p.epsilons.getD j 0)
       let x := bond_value i j c / sigma
       let dVdr := -2.208e6 * Real.exp (-12.0 * x) + 13.5 / x ^ 7
       let d2Vdr2 := 2.6496e7 * Real.exp (-12.0 * x) - 94.5 / x ^ 8
       p.get_scale i j * epsilon / sigma *
         (d2Vdr2 / sigma * (bond_grad i j c a s * bond_grad i j c b t) +
           dVdr * bond_hess i j c a s b t))

noncomputable def MM3BuckinghamPot.init (sigmas epsilons : List ℝ)
    (scales : Fin 3 → ℝ) (scaled_pairs : Fin 3 → List (ℕ × ℕ)) :
    Option Coords → MM3BuckinghamPot
  | none => ⟨sigmas, epsilons, scales, scaled_pairs, 0⟩
  | some c0 => ⟨sigmas, epsilons, scales, scaled_pairs,
      -(MM3BuckinghamPot.calc_energy ⟨sigmas, epsilons, scales, scaled_pairs, 0⟩
          c0)⟩

/-! ## Shapes of the returned gradient and Hessian arrays

Each definition records the numpy shape of the array returned by the
corresponding calc_gradient / calc_hessian method, read off the np.zeros
call that creates the accumulator (model.py lines 657-661, 727-750,
868-896, 938-967, 1032-1046). -/

/-- ZeroPot.calc_gradient returns np.zeros([len(coords), 3]). -/
def ZeroPot.grad_shape (natoms : ℕ) : List ℕ := [natoms, 3]

/-- ZeroPot.calc_hessian returns np.zeros([len(coords), 3, len(coords), 3]). -/
def ZeroPot.hess_shape (natoms : ℕ) : List ℕ := [natoms, 3, natoms, 3]

/-- CoulPointPot.calc_gradient accumulates into np.zeros(3*len(charges)). -/
def CoulPointPot.grad_shape (ncharges : ℕ) : List ℕ := [3 * ncharges]

/-- CoulPointPot.calc_hessian accumulates into
np.zeros([3*len(charges), 3*len(charges)]). -/
def CoulPointPot.hess_shape (ncharges : ℕ) : List ℕ :=
  [3 * ncharges, 3 * ncharges]

/-- CoulGaussPot.calc_gradient accumulates into np.zeros(3*len(charges)). -/
def CoulGaussPot.grad_shape (ncharges : ℕ) : List ℕ := [3 * ncharges]

def CoulGaussPot.hess_shape (ncharges : ℕ) : List ℕ :=
  [3 * ncharges, 3 * ncharges]

/-- LennardJonesPot.calc_gradient accumulates into np.zeros(3*len(coords)). -/
def LennardJonesPot.grad_shape (natoms : ℕ) : List ℕ := [3 * natoms]

def LennardJonesPot.hess_shape (natoms : ℕ) : List ℕ :=
  [3 * natoms, 3 * natoms]

/-- MM3BuckinghamPot.calc_gradient accumulates into np.zeros(3*len(coords)). -/
def MM3BuckinghamPot.grad_shape (natoms : ℕ) : List ℕ := [3 * natoms]

def MM3BuckinghamPot.hess_shape (natoms : ℕ) : List ℕ :=
  [3 * natoms, 3 * natoms]

/-- TermListPot.calc_gradient accumulates into np.zeros([natoms, 3]). -/
def TermListPot.grad_shape (natoms : ℕ) : List ℕ := [natoms, 3]

/-- TermListPot.calc_hessian accumulates into np.zeros([natoms, 3, natoms, 3]). -/
def TermListPot.hess_shape (natoms : ℕ) : List ℕ := [natoms, 3, natoms, 3]

/-! ## Valence model: internal coordinates, Terms, the System snapshot -/

/-- Python str.startswith, used on internal-coordinate names. -/
def hasPrefix (s p : String) : Bool := p.data.isPrefixOf s.data

/-- The external InternalCoordinate capability: an ordered atom-index tuple
together with the value/gradient/Hessian functions it supplies. -/
structure IC where
  indexes : List ℕ
  value : Coords → ℝ
  grad : Coords → ℕ → Fin 3 → ℝ
  hess : Coords → ℕ → Fin 3 → ℕ → Fin 3 → ℝ

inductive TermKind where
  | harmonic : TermKind
  | cosine : TermKind
deriving DecidableEq

/-- Modelled from the spec: a valence Term (quickff.terms, not under src/):
one bound internal coordinate, the reference coordinates, scalar parameters
k (force constant) and q0 (rest value) which may be unset (None), and for
cosine terms the periodicity A. -/
structure Term where
  ic : IC
  coords0 : Coords
  k : Option ℝ
  q0 : Option ℝ
  A : Option ℝ
  kind : TermKind

/-- Modelled from the spec: HarmonicTerm constructor; from_system calls it
with k = None and q0 = None. -/
def HarmonicTerm (ic : IC) (coords0 : Coords) (k q0 : Option ℝ) : Term :=
  ⟨ic, coords0, k, q0, none, TermKind.harmonic⟩

/-- Modelled from the spec: CosineTerm constructor with positional scalar
parameters k, q0 (the rest value) and A (the periodicity), mirroring
CosineTerm(ic, coords0, k, q0, A). -/
def CosineTerm (ic : IC) (coords0 : Coords) (k q0 A : ℝ) : Term :=
  ⟨ic, coords0, some k, some q0, some A, TermKind.cosine⟩

/-- Modelled from the spec: the energy a Term exposes (harmonic
0.5*k*(q-q0)^2 or cosine 0.5*k*(1-cos(A*(q-q0))) functional form, with the
unset-parameter default totalized to 0). -/
noncomputable def Term.calc_energy (t : Term) (c : Coords) : ℝ :=
  match t.kind with
  | TermKind.harmonic => 0.5 * t.k.getD 0 * (t.ic.value c - t.q0.getD 0) ^ 2
  | TermKind.cosine =>
      0.5 * t.k.getD 0 * (1 - Real.cos (t.A.getD 0 * (t.ic.value c - t.q0.getD 0)))

/-- Modelled from the spec: the gradient a Term exposes (chain rule through
the internal-coordinate value). -/
noncomputable def Term.calc_gradient (t : Term) (c : Coords) : ℕ → Fin 3 → ℝ :=
  fun a s =>
    match t.kind with
    | TermKind.harmonic =>
        t.k.getD 0 * (t.ic.value c - t.q0.getD 0) * t.ic.grad c a s
    | TermKind.cosine =>
        0.5 * t.k.getD 0 * t.A.getD 0 *
          Real.sin (t.A.getD 0 * (t.ic.value c - t.q0.getD 0)) * t.ic.grad c a s

/-- Modelled from the spec: the Hessian a Term exposes. -/
noncomputable def Term.calc_hessian (t : Term) (c : Coords) :
    ℕ → Fin 3 → ℕ → Fin 3 → ℝ :=
  fun a s b u =>
    match t.kind with
    | TermKind.harmonic =>
        t.k.getD 0 * (t.ic.grad c a s * t.ic.grad c b u +
          (t.ic.value c - t.q0.getD 0) * t.ic.hess c a s b u)
    | TermKind.cosine =>
        0.5 * t.k.getD 0 * t.A.getD 0 *
          (t.A.getD 0 * Real.cos (t.A.getD 0 * (t.ic.value c - t.q0.getD 0)) *
              (t.ic.grad c a s * t.ic.grad c b u) +
            Real.sin (t.A.getD 0 * (t.ic.value c - t.q0.getD 0)) *
              t.ic.hess c a s b u)

/-- The external System snapshot: the internal-coordinate map (name to
instances), the neighbour list, and the reference coordinates. -/
structure System where
  ics : List (String × List IC)
  nlist : ℕ → List ℕ
  refCoords : Coords

/-- Dictionary lookup system.ics[icname] (names are unique dict keys). -/
def icsLookup (sys : System) (name : String) : List IC :=
  (((sys.ics.find? (fun e => e.1 = name)).map (fun e => e.2)).getD [])

/-- Modelled from the spec: DataArray of quickff.fftable (not under src/),
holding a data array and a unit tag. -/
structure DataArray where
  data : List ℝ
  unit : String

/-- Modelled from the spec: the mean statistic of a DataArray. -/
noncomputable def DataArray.mean (a : DataArray) : ℝ :=
  a.data.sum / a.data.length

/-- Modelled from the spec: the (population) standard deviation statistic. -/
noncomputable def DataArray.std (a : DataArray) : ℝ :=
  Real.sqrt (((a.data.map (fun x => (x - a.mean) ^ 2)).sum) / a.data.length)

/-! ## Dihedral classification (model.py lines 476-543) -/

/-- determine_mrv (local function of determine_dihedral_potentials): fold psi
into the period 360*deg/m and classify into the first/last sixth (phase 0),
the middle third (phase per/2), or invalid (-1). -/
noncomputable def determine_mrv (m : ℕ) (psi : ℝ) : ℤ × ℝ :=
  let per := 360 * deg / (m : ℝ)
  let val := fmod psi per
  if (0 ≤ val ∧ val ≤ per / 6) ∨ (5 * per / 6 ≤ val ∧ val ≤ per) then
    ((m : ℤ), 0)
  else if 2 * per / 6 ≤ val ∧ val ≤ 4 * per / 6 then
    ((m : ℤ), per / 2)
  else
    (-1, 0)

/-- The per-instance classification (model.py lines 502-521): the unordered
set of the coordination numbers of the two central atoms picks the candidate
periodicity and determine_mrv is applied to the absolute reference angle. -/
noncomputable def classify_dihedral (sys : System) (ic : IC) : ℤ × ℝ :=
  let psi0 := |ic.value sys.refCoords|
  let n1 := (sys.nlist (ic.indexes.getD 1 0)).length
  let n2 := (sys.nlist (ic.indexes.getD 2 0)).length
  if ({n1, n2} : Finset ℕ) = {4, 4} then determine_mrv 3 psi0
  else if ({n1, n2} : Finset ℕ) = {3, 4} then determine_mrv 6 psi0
  else if ({n1, n2} : Finset ℕ) = {2, 4} then determine_mrv 3 psi0
  else if ({n1, n2} : Finset ℕ) = {3, 3} then determine_mrv 2 psi0
  else if ({n1, n2} : Finset ℕ) = {2, 3} then determine_mrv 2 psi0
  else if ({n1, n2} : Finset ℕ) = {2, 2} then determine_mrv 1 psi0
  else (-1, 0)

/-- The valence term map: internal-coordinate name to the list of Term slots
(a slot is None until the dihedral potential kind is determined). -/
abbrev VTerms := List (String × List (Option Term))

/-- The m values collected over the instances of one dihedral name. -/
noncomputable def dihedMs (sys : System) (name : String) : List ℝ :=
  (icsLookup sys name).map (fun ic => ((classify_dihedral sys ic).1 : ℝ))

/-- The rest values collected over the instances of one dihedral name. -/
noncomputable def dihedRvs (sys : System) (name : String) : List ℝ :=
  (icsLookup sys name).map (fun ic => (classify_dihedral sys ic).2)

/-- The condition under which a dihedral name group is dropped
(model.py line 524): m.mean == -1 or m.std > 0.0 or rv.std > 0.0. -/
noncomputable def dihedDropped (sys : System) (name : String) : Prop :=
  DataArray.mean ⟨dihedMs sys name, "au"⟩ = -1 ∨
    0 < DataArray.std ⟨dihedMs sys name, "au"⟩ ∨
    0 < DataArray.std ⟨dihedRvs sys name, "deg"⟩

open scoped Classical in
/-- Processing of a single entry of the valence term map by
determine_dihedral_potentials: non-dihedral names pass through unchanged;
a dihedral name is dropped when its group statistics are inconsistent and
otherwise every slot becomes CosineTerm(ic, ref coords, 0.0, rv.mean, m.mean). -/
noncomputable def processEntry (sys : System) (e : String × List (Option Term)) :
    Option (String × List (Option Term)) :=
  if hasPrefix e.1 "dihed" = true then
    if dihedDropped sys e.1 then none
    else some (e.1, (icsLookup sys e.1).map (fun ic =>
      some (CosineTerm ic sys.refCoords 0
        (DataArray.mean ⟨dihedRvs sys e.1, "deg"⟩)
        (DataArray.mean ⟨dihedMs sys e.1, "au"⟩))))
  else some e

/-- determine_dihedral_potentials (model.py lines 476-543).  The marge2 and
marge3 arguments mirror the source signature (defaults 15*deg); the loop
collects the groups to delete and deletes them after the replacement pass,
which is the single filterMap below. -/
noncomputable def determine_dihedral_potentials (marge2 marge3 : ℝ)
    (sys : System) (vterms : VTerms) : VTerms :=
  vterms.filterMap (processEntry sys)

/-! ## ValencePart construction and TermListPot evaluation
(model.py lines 406-460 and 1016-1046) -/

/-- The icname selection of from_system under the default identifier list
consisting of the keyword all: every name starting with bond, angle,
dihed or opdist. -/
def selectedIcs (sys : System) : List (String × List IC) :=
  sys.ics.filter (fun e =>
    hasPrefix e.1 "bond" || hasPrefix e.1 "angle" ||
      hasPrefix e.1 "dihed" || hasPrefix e.1 "opdist")

/-- ValencePart.from_system: every dihedral instance gets a None placeholder
slot; every other instance gets HarmonicTerm(ic, ref coords, None, None). -/
def ValencePart.from_system (sys : System) : VTerms :=
  (selectedIcs sys).map (fun e =>
    (e.1,
      if hasPrefix e.1 "dihed" = true then
        e.2.map (fun _ => (none : Option Term))
      else
        e.2.map (fun ic => some (HarmonicTerm ic sys.refCoords none none))))

/-- Energy of the slots of one coordinate-name group; evaluating a None slot
is the failure of the source (AttributeError), modelled as Option failure. -/
noncomputable def slotsEnergy : List (Option Term) → Coords → Option ℝ
  | [], _ => some 0
  | none :: _, _ => none
  | some t :: rest, c => (slotsEnergy rest c).map (fun e => t.calc_energy c + e)

/-- TermListPot.calc_energy: sum over every name group and every Term. -/
noncomputable def TermListPot.calc_energy : VTerms → Coords → Option ℝ
  | [], _ => some 0
  | e :: rest, c =>
      (slotsEnergy e.2 c).bind (fun x =>
        (TermListPot.calc_energy rest c).map (fun y => x + y))

noncomputable def slotsGradient :
    List (Option Term) → Coords → Option (ℕ → Fin 3 → ℝ)
  | [], _ => some (fun _ _ => 0)
  | none :: _, _ => none
  | some t :: rest, c =>
      (slotsGradient rest c).map (fun g a s => t.calc_gradient c a s + g a s)

/-- TermListPot.calc_gradient: accumulated over every name group and Term. -/
noncomputable def TermListPot.calc_gradient :
    VTerms → Coords → Option (ℕ → Fin 3 → ℝ)
  | [], _ => some (fun _ _ => 0)
  | e :: rest, c =>
      (slotsGradient e.2 c).bind (fun g =>
        (TermListPot.calc_gradient rest c).map (fun h a s => g a s + h a s))

noncomputable def slotsHessian :
    List (Option Term) → Coords → Option (ℕ → Fin 3 → ℕ → Fin 3 → ℝ)
  | [], _ => some (fun _ _ _ _ => 0)
  | none :: _, _ => none
  | some t :: rest, c =>
      (slotsHessian rest c).map (fun h a s b u => t.calc_hessian c a s b u + h a s b u)

/-- TermListPot.calc_hessian: accumulated over every name group and Term. -/
noncomputable def TermListPot.calc_hessian :
    VTerms → Coords → Option (ℕ → Fin 3 → ℕ → Fin 3 → ℝ)
  | [], _ => some (fun _ _ _ _ => 0)
  | e :: rest, c =>
      (slotsHessian e.2 c).bind (fun g =>
        (TermListPot.calc_hessian rest c).map (fun h a s b u => g a s b u + h a s b u))

/-! ## FFTable accessors (model.py lines 551-596) -/

/-- Modelled from the spec: one FFTable entry holds the per-Term force
constants and rest values of a name group (plus the periodicities of cosine
Terms), as DataArray raw data. -/
structure FFEntry where
  ks : List (Option ℝ)
  q0s : List (Option ℝ)
  ms : List ℝ

/-- Modelled from the spec: the FFTable maps coordinate names to aggregated
parameter statistics. -/
abbrev FFTable := List (String × FFEntry)

/-- Mean of a list of optionally-set parameters: defined when all are set. -/
noncomputable def omean (l : List (Option ℝ)) : Option ℝ :=
  if l.all (fun x => x.isSome) then
    some (DataArray.mean ⟨l.map (fun x => x.getD 0), "au"⟩)
  else none

/-- Modelled from the spec: FFTable lookup (fftab[icname]) returns the k and
q0 values for that name, the means of the stored statistics. -/
noncomputable def ffLookup (fftab : FFTable) (name : String) :
    Option (Option ℝ × Option ℝ) :=
  ((fftab.find? (fun e => e.1 = name)).map
    (fun e => (omean e.2.ks, omean e.2.q0s)))

/-- ValencePart.get_fftable: collect k and q0 (and the periodicity of cosine
Terms) of every Term of every name group. -/
noncomputable def ValencePart.get_fftable (v : VTerms) : FFTable :=
  v.map (fun e =>
    (e.1,
      { ks := e.2.map (fun s => s.bind (fun t => t.k)),
        q0s := e.2.map (fun s => s.bind (fun t => t.q0)),
        ms := e.2.filterMap (fun s => s.bind (fun t =>
          if t.kind = TermKind.cosine then t.A else none)) }))

/-- ValencePart.update_fftable: for every name present in the table, overwrite
every Term of that group with the values the table returns for the name. -/
noncomputable def ValencePart.update_fftable (fftab : FFTable) (v : VTerms) :
    VTerms :=
  v.map (fun e =>
    match ffLookup fftab e.1 with
    | none => e
    | some kq => (e.1, e.2.map (fun s => s.map (fun t =>
        { t with k := kq.1, q0 := kq.2 }))))

/-! ## Statistics lemmas for the group aggregation -/

lemma list_sum_sq_nonneg (l : List ℝ) (c : ℝ) :
    0 ≤ (l.map (fun x => (x - c) ^ 2)).sum := by
  induction l with
  | nil => simp
  | cons a rest ih =>
      simp only [List.map_cons, List.sum_cons]
      have : (0:ℝ) ≤ (a - c) ^ 2 := sq_nonneg _
      linarith

lemma list_sum_sq_eq_zero (l : List ℝ) (c : ℝ)
    (h : (l.map (fun x => (x - c) ^ 2)).sum = 0) : ∀ x ∈ l, x = c := by
  induction l with
  | nil => simp
  | cons a rest ih =>
      simp only [List.map_cons, List.sum_cons] at h
      have h1 : (0:ℝ) ≤ (a - c) ^ 2 := sq_nonneg _
      have h2 : 0 ≤ (rest.map (fun x => (x - c) ^ 2)).sum :=
        list_sum_sq_nonneg rest c
      have ha : (a - c) ^ 2 = 0 := by linarith
      have hrest : (rest.map (fun x => (x - c) ^ 2)).sum = 0 := by linarith
      intro x hx
      rcases List.mem_cons.mp hx with hx | hx
      · subst hx
        have := pow_eq_zero_iff (n := 2) (by norm_num) |>.mp ha
        linarith [sub_eq_zero.mp this]
      · exact ih hrest x hx

lemma list_sum_const (l : List ℝ) (c : ℝ) (h : ∀ x ∈ l, x = c) :
    l.sum = c * l.length := by
  induction l with
  | nil => simp
  | cons a rest ih =>
      have ha : a = c := h a (List.mem_cons_self a rest)
      have hrest : rest.sum = c * rest.length :=
        ih (fun x hx => h x (List.mem_cons_of_mem a hx))
      simp only [List.sum_cons, List.length_cons, ha, hrest]
      push_cast
      ring

lemma DataArray.mean_const (l : List ℝ) (u : String) (c : ℝ) (hne : l ≠ [])
    (h : ∀ x ∈ l, x = c) : DataArray.mean ⟨l, u⟩ = c := by
  unfold DataArray.mean
  simp only
  rw [list_sum_const l c h]
  have hlen : (l.length : ℝ) ≠ 0 := by
    simpa using hne
  field_simp

lemma DataArray.std_pos_of_ne (l : List ℝ) (u : String) (x y : ℝ)
    (hx : x ∈ l) (hy : y ∈ l) (hxy : x ≠ y) : 0 < DataArray.std ⟨l, u⟩ := by
  unfold DataArray.std
  apply Real.sqrt_pos.mpr
  have hne : l ≠ [] := by rintro rfl; exact (List.not_mem_nil x) hx
  have hlen : (0:ℝ) < l.length :=
    Nat.cast_pos.mpr (List.length_pos.mpr hne)
  apply div_pos _ hlen
  set c := DataArray.mean ⟨l, u⟩
  rcases lt_or_eq_of_le (list_sum_sq_nonneg l c) with h | h
  · exact h
  · exfalso
    have hall := list_sum_sq_eq_zero l c h.symm
    exact hxy ((hall x hx).trans (hall y hy).symm)

/-! ## Claim theorems -/

/-- Claim C1: for the Harmonic potential constructed from X0, E0, G0, H0,
calc_energy(X) = E0 + G0.dx + 0.5*dx.H0.dx with dx = X - X0, calc_gradient(X)
= G0 + H0.dx, calc_hessian(X) = H0 independent of X; in particular
calc_energy(X0) = E0 and calc_gradient(X0) = G0 elementwise. -/
theorem harmonicPot_taylor_C1 {d : ℕ} (p : HarmonicPot d) :
    (∀ X, p.calc_energy X =
      p.energy0 + (∑ i, p.grad0 i * (X i - p.coords0 i)) +
        0.5 * ∑ i, (X i - p.coords0 i) *
          ∑ j, p.hess0 i j * (X j - p.coords0 j)) ∧
    (∀ X, p.calc_gradient X =
      fun i => p.grad0 i + ∑ j, p.hess0 i j * (X j - p.coords0 j)) ∧
    (∀ X, p.calc_hessian X = p.hess0) ∧
    p.calc_energy p.coords0 = p.energy0 ∧
    p.calc_gradient p.coords0 = p.grad0 := by
  refine ⟨fun X => rfl, fun X => rfl, fun X => rfl, ?_, ?_⟩
  · unfold HarmonicPot.calc_energy
    simp
  · funext i
    unfold HarmonicPot.calc_gradient
    simp

/-- Claim C3: scale resolution is symmetric, checks the 1-2, 1-3, 1-4 pair
lists in that order treating (i,j) and (j,i) as the same unordered pair,
returns the scale of the first list containing the pair, and returns 1.0 for
a pair contained in none of the lists; moreover the four pairwise potentials
share this resolution function verbatim. -/
theorem resolve_scale_C3 (scales : Fin 3 → ℝ) (pairs : Fin 3 → List (ℕ × ℕ))
    (i j : ℕ) :
    resolve_scale scales pairs i j = resolve_scale scales pairs j i ∧
    (((i, j) ∈ pairs 0 ∨ (j, i) ∈ pairs 0) →
      resolve_scale scales pairs i j = scales 0) ∧
    (¬((i, j) ∈ pairs 0 ∨ (j, i) ∈ pairs 0) →
      ((i, j) ∈ pairs 1 ∨ (j, i) ∈ pairs 1) →
      resolve_scale scales pairs i j = scales 1) ∧
    (¬((i, j) ∈ pairs 0 ∨ (j, i) ∈ pairs 0) →
      ¬((i, j) ∈ pairs 1 ∨ (j, i) ∈ pairs 1) →
      ((i, j) ∈ pairs 2 ∨ (j, i) ∈ pairs 2) →
      resolve_scale scales pairs i j = scales 2) ∧
    ((∀ k : Fin 3, (i, j) ∉ pairs k ∧ (j, i) ∉ pairs k) →
      resolve_scale scales pairs i j = 1) ∧
    (∀ ch sg ep : List ℝ,
      CoulPointPot.get_scale ⟨ch, scales, pairs, 0⟩ i j =
        resolve_scale scales pairs i j ∧
      CoulGaussPot.get_scale ⟨ch, sg, scales, pairs, 0⟩ i j =
        resolve_scale scales pairs i j ∧
      LennardJonesPot.get_scale ⟨sg, ep, scales, pairs, 0⟩ i j =
        resolve_scale scales pairs i j ∧
      MM3BuckinghamPot.get_scale ⟨sg, ep, scales, pairs, 0⟩ i j =
        resolve_scale scales pairs i j) := by
  refine ⟨?_, ?_, ?_, ?_, ?_, fun ch sg ep => ⟨rfl, rfl, rfl, rfl⟩⟩
  · unfold resolve_scale
    split_ifs <;> first | rfl | tauto
  · intro h; unfold resolve_scale; rw [if_pos h]
  · intro h0 h1; unfold resolve_scale; rw [if_neg h0, if_pos h1]
  · intro h0 h1 h2; unfold resolve_scale; rw [if_neg h0, if_neg h1, if_pos h2]
  · intro h
    unfold resolve_scale
    rw [if_neg, if_neg, if_neg]
    · rintro (hm | hm); exact (h 2).1 hm; exact (h 2).2 hm
    · rintro (hm | hm); exact (h 1).1 hm; exact (h 1).2 hm
    · rintro (hm | hm); exact (h 0).1 hm; exact (h 0).2 hm

/-- Witness for C3 at concrete pair lists: the 0-1 pair resolves to the 1-2
scale, 0-2 to the 1-3 scale, 3-0 (reversed) to the 1-4 scale, an unlisted
pair to 1.0, and lookup is symmetric. -/
theorem resolve_scale_C3_witness :
    resolve_scale ![2, 3, 4] ![[(0, 1)], [(0, 2)], [(0, 3)]] 1 0 = 2 ∧
    resolve_scale ![2, 3, 4] ![[(0, 1)], [(0, 2)], [(0, 3)]] 0 2 = 3 ∧
    resolve_scale ![2, 3, 4] ![[(0, 1)], [(0, 2)], [(0, 3)]] 3 0 = 4 ∧
    resolve_scale ![2, 3, 4] ![[(0, 1)], [(0, 2)], [(0, 3)]] 4 5 = 1 ∧
    resolve_scale ![2, 3, 4] ![[(0, 1)], [(0, 2)], [(0, 3)]] 0 3 =
      resolve_scale ![2, 3, 4] ![[(0, 1)], [(0, 2)], [(0, 3)]] 3 0 := by
  refine ⟨?_, ?_, ?_, ?_,
    (resolve_scale_C3 ![2, 3, 4] ![[(0, 1)], [(0, 2)], [(0, 3)]] 0 3).1⟩
  · have h := (resolve_scale_C3 ![2, 3, 4] ![[(0, 1)], [(0, 2)], [(0, 3)]] 1 0).2.1
      (by decide)
    simpa using h
  · have h := (resolve_scale_C3 ![2, 3, 4] ![[(0, 1)], [(0, 2)], [(0, 3)]] 0 2).2.2.1
      (by decide) (by decide)
    simpa using h
  · have h :=
      (resolve_scale_C3 ![2, 3, 4] ![[(0, 1)], [(0, 2)], [(0, 3)]] 3 0).2.2.2.1
      (by decide) (by decide) (by decide)
    simpa using h
  · exact (resolve_scale_C3 ![2, 3, 4] ![[(0, 1)], [(0, 2)], [(0, 3)]] 4 5).2.2.2.2.1
      (by decide)

lemma coulPoint_get_scale_mk (ch : List ℝ) (scales : Fin 3 → ℝ)
    (pairs : Fin 3 → List (ℕ × ℕ)) (sh : ℝ) (i j : ℕ) :
    CoulPointPot.get_scale ⟨ch, scales, pairs, sh⟩ i j =
      resolve_scale scales pairs i j := rfl

lemma coulGauss_get_scale_mk (ch sg : List ℝ) (scales : Fin 3 → ℝ)
    (pairs : Fin 3 → List (ℕ × ℕ)) (sh : ℝ) (i j : ℕ) :
    CoulGaussPot.get_scale ⟨ch, sg, scales, pairs, sh⟩ i j =
      resolve_scale scales pairs i j := rfl

lemma lj_get_scale_mk (sg ep : List ℝ) (scales : Fin 3 → ℝ)
    (pairs : Fin 3 → List (ℕ × ℕ)) (sh : ℝ) (i j : ℕ) :
    LennardJonesPot.get_scale ⟨sg, ep, scales, pairs, sh⟩ i j =
      resolve_scale scales pairs i j := rfl

lemma mm3_get_scale_mk (sg ep : List ℝ) (scales : Fin 3 → ℝ)
    (pairs : Fin 3 → List (ℕ × ℕ)) (sh : ℝ) (i j : ℕ) :
    MM3BuckinghamPot.get_scale ⟨sg, ep, scales, pairs, sh⟩ i j =
      resolve_scale scales pairs i j := rfl

lemma lj_npairs_mk (sg ep : List ℝ) (scales : Fin 3 → ℝ)
    (pairs : Fin 3 → List (ℕ × ℕ)) (sh : ℝ) :
    LennardJonesPot.npairs ⟨sg, ep, scales, pairs, sh⟩ =
      (sg.zip ep).length := rfl

lemma mm3_npairs_mk (sg ep : List ℝ) (scales : Fin 3 → ℝ)
    (pairs : Fin 3 → List (ℕ × ℕ)) (sh : ℝ) :
    MM3BuckinghamPot.npairs ⟨sg, ep, scales, pairs, sh⟩ =
      (sg.zip ep).length := rfl

/-- Claim C2: each of the four pairwise potentials constructed with a
reference geometry evaluates to exactly 0 there (the shift is minus the
unshifted energy), and the shift does not enter calc_gradient or
calc_hessian, which coincide with those of the potential constructed
without a reference geometry. -/
theorem pairwise_shift_C2 (charges sigmas epsilons : List ℝ)
    (scales : Fin 3 → ℝ) (pairs : Fin 3 → List (ℕ × ℕ)) (c0 : Coords) :
    (CoulPointPot.calc_energy (CoulPointPot.init charges scales pairs (some c0))
        c0 = 0 ∧
      CoulPointPot.calc_gradient (CoulPointPot.init charges scales pairs (some c0)) =
        CoulPointPot.calc_gradient (CoulPointPot.init charges scales pairs none) ∧
      CoulPointPot.calc_hessian (CoulPointPot.init charges scales pairs (some c0)) =
        CoulPointPot.calc_hessian (CoulPointPot.init charges scales pairs none)) ∧
    (CoulGaussPot.calc_energy
        (CoulGaussPot.init charges sigmas scales pairs (some c0)) c0 = 0 ∧
      CoulGaussPot.calc_gradient
          (CoulGaussPot.init charges sigmas scales pairs (some c0)) =
        CoulGaussPot.calc_gradient
          (CoulGaussPot.init charges sigmas scales pairs none) ∧
      CoulGaussPot.calc_hessian
          (CoulGaussPot.init charges sigmas scales pairs (some c0)) =
        CoulGaussPot.calc_hessian
          (CoulGaussPot.init charges sigmas scales pairs none)) ∧
    (LennardJonesPot.calc_energy
        (LennardJonesPot.init sigmas epsilons scales pairs (some c0)) c0 = 0 ∧
      LennardJonesPot.calc_gradient
          (LennardJonesPot.init sigmas epsilons scales pairs (some c0)) =
        LennardJonesPot.calc_gradient
          (LennardJonesPot.init sigmas epsilons scales pairs none) ∧
      LennardJonesPot.calc_hessian
          (LennardJonesPot.init sigmas epsilons scales pairs (some c0)) =
        LennardJonesPot.calc_hessian
          (LennardJonesPot.init sigmas epsilons scales pairs none)) ∧
    (MM3BuckinghamPot.calc_energy
        (MM3BuckinghamPot.init sigmas epsilons scales pairs (some c0)) c0 = 0 ∧
      MM3BuckinghamPot.calc_gradient
          (MM3BuckinghamPot.init sigmas epsilons scales pairs (some c0)) =
        MM3BuckinghamPot.calc_gradient
          (MM3BuckinghamPot.init sigmas epsilons scales pairs none) ∧
      MM3BuckinghamPot.calc_hessian
          (MM3BuckinghamPot.init sigmas epsilons scales pairs (some c0)) =
        MM3BuckinghamPot.calc_hessian
          (MM3BuckinghamPot.init sigmas epsilons scales pairs none)) := by
  refine ⟨⟨?_, rfl, rfl⟩, ⟨?_, rfl, rfl⟩, ⟨?_, rfl, rfl⟩, ⟨?_, rfl, rfl⟩⟩
  · show CoulPointPot.calc_energy
      ⟨charges, scales, pairs,
        -(CoulPointPot.calc_energy ⟨charges, scales, pairs, 0⟩ c0)⟩ c0 = 0
    unfold CoulPointPot.calc_energy
    simp only [coulPoint_get_scale_mk]
    ring
  · show CoulGaussPot.calc_energy
      ⟨charges, sigmas, scales, pairs,
        -(CoulGaussPot.calc_energy ⟨charges, sigmas, scales, pairs, 0⟩ c0)⟩ c0 = 0
    unfold CoulGaussPot.calc_energy
    simp only [coulGauss_get_scale_mk]
    ring
  · show LennardJonesPot.calc_energy
      ⟨sigmas, epsilons, scales, pairs,
        -(LennardJonesPot.calc_energy ⟨sigmas, epsilons, scales, pairs, 0⟩ c0)⟩
        c0 = 0
    unfold LennardJonesPot.calc_energy
    simp only [lj_get_scale_mk, lj_npairs_mk]
    ring
  · show MM3BuckinghamPot.calc_energy
      ⟨sigmas, epsilons, scales, pairs,
        -(MM3BuckinghamPot.calc_energy ⟨sigmas, epsilons, scales, pairs, 0⟩ c0)⟩
        c0 = 0
    unfold MM3BuckinghamPot.calc_energy
    simp only [mm3_get_scale_mk, mm3_npairs_mk]
    ring

/-- The 2-atom end-to-end geometry of the spec: atom 0 at the origin and
atom 1 at unit distance along the first axis. -/
noncomputable def twoAtomCoords : Coords :=
  fun a t => if a = 1 ∧ t = 0 then 1 else 0

lemma coulPoint_energy_shift_split (ch : List ℝ) (scales : Fin 3 → ℝ)
    (pairs : Fin 3 → List (ℕ × ℕ)) (sh : ℝ) (c : Coords) :
    CoulPointPot.calc_energy ⟨ch, scales, pairs, sh⟩ c =
      sh + CoulPointPot.calc_energy ⟨ch, scales, pairs, 0⟩ c := by
  unfold CoulPointPot.calc_energy
  simp only [coulPoint_get_scale_mk]
  ring

lemma coulPoint_two_atom_base :
    CoulPointPot.calc_energy ⟨[1, -1], fun _ => 1, fun _ => [], 0⟩
      twoAtomCoords = -1 := by
  have hscale : ∀ i j : ℕ, resolve_scale (fun _ => 1) (fun _ => []) i j = 1 := by
    intro i j
    unfold resolve_scale
    simp
  have hr : bond_value 1 0 twoAtomCoords = 1 := by
    unfold bond_value
    have e1 : twoAtomCoords 1 0 = 1 := by
      unfold twoAtomCoords; rw [if_pos (by decide)]
    have e2 : twoAtomCoords 1 1 = 0 := by
      unfold twoAtomCoords; rw [if_neg (by decide)]
    have e3 : twoAtomCoords 1 2 = 0 := by
      unfold twoAtomCoords; rw [if_neg (by decide)]
    have e4 : twoAtomCoords 0 0 = 0 := by
      unfold twoAtomCoords; rw [if_neg (by decide)]
    have e5 : twoAtomCoords 0 1 = 0 := by
      unfold twoAtomCoords; rw [if_neg (by decide)]
    have e6 : twoAtomCoords 0 2 = 0 := by
      unfold twoAtomCoords; rw [if_neg (by decide)]
    rw [e1, e2, e3, e4, e5, e6]
    norm_num
  unfold CoulPointPot.calc_energy
  simp only [coulPoint_get_scale_mk, hscale, List.length_cons,
    List.length_nil]
  norm_num [Finset.sum_range_succ, List.getD, hr]

/-- Claim C6: CoulPointPot.calc_energy equals the shift plus the sum over
unordered pairs (i,j) with j < i of scale*qi*qj/r (skipping scale-0 pairs
does not change the value); for the 2-atom system with charges [+1,-1], all
scales 1 and separation 1, the energy before the shift is -1 and with
coords0 equal to that geometry the shifted energy is 0. -/
theorem coulPoint_energy_C6 :
    (∀ (p : CoulPointPot) (c : Coords),
      CoulPointPot.calc_energy p c =
        p.shift + ∑ i ∈ Finset.range p.charges.length, ∑ j ∈ Finset.range i,
          p.get_scale i j *
            (p.charges.getD i 0 * p.charges.getD j 0 / bond_value i j c)) ∧
    CoulPointPot.calc_energy
      (CoulPointPot.init [1, -1] (fun _ => 1) (fun _ => []) none)
      twoAtomCoords = -1 ∧
    CoulPointPot.calc_energy
      (CoulPointPot.init [1, -1] (fun _ => 1) (fun _ => []) (some twoAtomCoords))
      twoAtomCoords = 0 := by
  refine ⟨?_, ?_, ?_⟩
  · intro p c
    unfold CoulPointPot.calc_energy
    congr 1
    apply Finset.sum_congr rfl
    intro i _
    apply Finset.sum_congr rfl
    intro j _
    by_cases h : p.get_scale i j = 0
    · rw [if_pos h, h]
      ring
    · rw [if_neg h]
      ring
  · exact coulPoint_two_atom_base
  · show CoulPointPot.calc_energy
      ⟨[1, -1], fun _ => 1, fun _ => [],
        -(CoulPointPot.calc_energy ⟨[1, -1], fun _ => 1, fun _ => [], 0⟩
            twoAtomCoords)⟩ twoAtomCoords = 0
    rw [coulPoint_energy_shift_split, coulPoint_two_atom_base]
    norm_num

/-- Counterexample to Claim C8 as stated: at N = 2 atoms the Zero potential
returns a (2,3)-shaped gradient and a (2,3,2,3)-shaped Hessian while
CoulPointPot returns a flat (6,)-shaped gradient and a (6,6)-shaped Hessian,
so the shapes are not identical across potentials. -/
theorem shapes_C8_counterexample :
    ZeroPot.grad_shape 2 ≠ CoulPointPot.grad_shape 2 ∧
    ZeroPot.hess_shape 2 ≠ CoulPointPot.hess_shape 2 := by
  decide

/-- Claim C8 amended: every potential returns a gradient with 3N total
entries and a Hessian with (3N)^2 total entries, and the shapes agree within
the two families: Zero and TermList return (N,3) and (N,3,N,3) arrays while
the four pairwise potentials return flattened (3N,) and (3N,3N) arrays. -/
theorem shapes_C8_amended (n : ℕ) :
    ((ZeroPot.grad_shape n).prod = 3 * n ∧
      (CoulPointPot.grad_shape n).prod = 3 * n ∧
      (CoulGaussPot.grad_shape n).prod = 3 * n ∧
      (LennardJonesPot.grad_shape n).prod = 3 * n ∧
      (MM3BuckinghamPot.grad_shape n).prod = 3 * n ∧
      (TermListPot.grad_shape n).prod = 3 * n) ∧
    ((ZeroPot.hess_shape n).prod = (3 * n) * (3 * n) ∧
      (CoulPointPot.hess_shape n).prod = (3 * n) * (3 * n) ∧
      (CoulGaussPot.hess_shape n).prod = (3 * n) * (3 * n) ∧
      (LennardJonesPot.hess_shape n).prod = (3 * n) * (3 * n) ∧
      (MM3BuckinghamPot.hess_shape n).prod = (3 * n) * (3 * n) ∧
      (TermListPot.hess_shape n).prod = (3 * n) * (3 * n)) ∧
    (ZeroPot.grad_shape n = TermListPot.grad_shape n ∧
      ZeroPot.hess_shape n = TermListPot.hess_shape n ∧
      CoulPointPot.grad_shape n = CoulGaussPot.grad_shape n ∧
      CoulPointPot.grad_shape n = LennardJonesPot.grad_shape n ∧
      CoulPointPot.grad_shape n = MM3BuckinghamPot.grad_shape n ∧
      CoulPointPot.hess_shape n = CoulGaussPot.hess_shape n ∧
      CoulPointPot.hess_shape n = LennardJonesPot.hess_shape n ∧
      CoulPointPot.hess_shape n = MM3BuckinghamPot.hess_shape n) := by
  refine ⟨⟨?_, ?_, ?_, ?_, ?_, ?_⟩, ⟨?_, ?_, ?_, ?_, ?_, ?_⟩,
    rfl, rfl, rfl, rfl, rfl, rfl, rfl, rfl⟩ <;>
    simp [ZeroPot.grad_shape, ZeroPot.hess_shape, CoulPointPot.grad_shape,
      CoulPointPot.hess_shape, CoulGaussPot.grad_shape, CoulGaussPot.hess_shape,
      LennardJonesPot.grad_shape, LennardJonesPot.hess_shape,
      MM3BuckinghamPot.grad_shape, MM3BuckinghamPot.hess_shape,
      TermListPot.grad_shape, TermListPot.hess_shape] <;>
    ring

lemma determine_mrv_first (m : ℕ) (psi : ℝ)
    (h : (0 ≤ fmod psi (360 * deg / (m : ℝ)) ∧
        fmod psi (360 * deg / (m : ℝ)) ≤ 360 * deg / (m : ℝ) / 6) ∨
      (5 * (360 * deg / (m : ℝ)) / 6 ≤ fmod psi (360 * deg / (m : ℝ)) ∧
        fmod psi (360 * deg / (m : ℝ)) ≤ 360 * deg / (m : ℝ))) :
    determine_mrv m psi = ((m : ℤ), 0) := by
  simp only [determine_mrv]
  rw [if_pos h]

lemma determine_mrv_middle (m : ℕ) (psi : ℝ) (hm : 0 < m)
    (h1 : 2 * (360 * deg / (m : ℝ)) / 6 ≤ fmod psi (360 * deg / (m : ℝ)))
    (h2 : fmod psi (360 * deg / (m : ℝ)) ≤ 4 * (360 * deg / (m : ℝ)) / 6) :
    determine_mrv m psi = ((m : ℤ), 360 * deg / (m : ℝ) / 2) := by
  have hper : 0 < 360 * deg / (m : ℝ) := by
    apply div_pos _ (Nat.cast_pos.mpr hm)
    have := deg_pos
    linarith
  simp only [determine_mrv]
  rw [if_neg, if_pos ⟨h1, h2⟩]
  rintro (⟨ha, hb⟩ | ⟨ha, hb⟩) <;> nlinarith

lemma determine_mrv_invalid (m : ℕ) (psi : ℝ)
    (h1 : ¬((0 ≤ fmod psi (360 * deg / (m : ℝ)) ∧
        fmod psi (360 * deg / (m : ℝ)) ≤ 360 * deg / (m : ℝ) / 6) ∨
      (5 * (360 * deg / (m : ℝ)) / 6 ≤ fmod psi (360 * deg / (m : ℝ)) ∧
        fmod psi (360 * deg / (m : ℝ)) ≤ 360 * deg / (m : ℝ))))
    (h2 : ¬(2 * (360 * deg / (m : ℝ)) / 6 ≤ fmod psi (360 * deg / (m : ℝ)) ∧
        fmod psi (360 * deg / (m : ℝ)) ≤ 4 * (360 * deg / (m : ℝ)) / 6)) :
    determine_mrv m psi = (-1, 0) := by
  simp only [determine_mrv]
  rw [if_neg h1, if_neg h2]

lemma per3_cast : 360 * deg / ((3 : ℕ) : ℝ) = 120 * deg := by
  push_cast
  ring

lemma determine_mrv_3_low (psi : ℝ) (h0 : 0 ≤ psi) (h1 : psi ≤ 10) :
    determine_mrv 3 (psi * deg) = (3, 0) := by
  have hval : fmod (psi * deg) (360 * deg / ((3 : ℕ) : ℝ)) = psi * deg := by
    rw [per3_cast]
    exact fmod_eq_self _ _ (mul_nonneg h0 deg_pos.le)
      (by nlinarith [mul_nonneg (sub_nonneg.mpr h1) deg_pos.le, deg_pos])
  have h := determine_mrv_first 3 (psi * deg) ?_
  · simpa using h
  · rw [hval, per3_cast]
    left
    exact ⟨mul_nonneg h0 deg_pos.le,
      by nlinarith [mul_nonneg (sub_nonneg.mpr h1) deg_pos.le, deg_pos]⟩

lemma determine_mrv_3_high (psi : ℝ) (h0 : 110 ≤ psi) (h1 : psi ≤ 120) :
    determine_mrv 3 (psi * deg) = (3, 0) := by
  have h := determine_mrv_first 3 (psi * deg) ?_
  · simpa using h
  · rcases lt_or_eq_of_le h1 with hlt | heq
    · have hval : fmod (psi * deg) (360 * deg / ((3 : ℕ) : ℝ)) = psi * deg := by
        rw [per3_cast]
        exact fmod_eq_self _ _ (by nlinarith [deg_pos])
          (by nlinarith [mul_pos (show (0:ℝ) < 120 - psi by linarith) deg_pos])
      rw [hval, per3_cast]
      right
      constructor
      · nlinarith [mul_nonneg (sub_nonneg.mpr h0) deg_pos.le, deg_pos]
      · nlinarith [mul_nonneg (sub_nonneg.mpr h1) deg_pos.le, deg_pos]
    · subst heq
      have hval : fmod (120 * deg) (360 * deg / ((3 : ℕ) : ℝ)) = 0 := by
        rw [per3_cast]
        exact fmod_self _ (ne_of_gt (by nlinarith [deg_pos]))
      rw [hval, per3_cast]
      left
      exact ⟨le_refl 0, by nlinarith [deg_pos]⟩

lemma determine_mrv_3_mid :
    determine_mrv 3 (60 * deg) = (3, 60 * deg) := by
  have hval : fmod (60 * deg) (360 * deg / ((3 : ℕ) : ℝ)) = 60 * deg := by
    rw [per3_cast]
    exact fmod_eq_self _ _ (by nlinarith [deg_pos]) (by nlinarith [deg_pos])
  have h := determine_mrv_middle 3 (60 * deg) (by norm_num) ?_ ?_
  · rw [h, per3_cast]
    rw [Prod.mk.injEq]
    exact ⟨by norm_num, by ring⟩
  · rw [hval, per3_cast]
    nlinarith [deg_pos]
  · rw [hval, per3_cast]
    nlinarith [deg_pos]

/-- Claim C4: dihedral classification maps the unordered central-atom
coordination pair to the periodicity by {4,4} to 3, {3,4} to 6, {2,4} to 3,
{3,3} to 2, {2,3} to 2, {2,2} to 1 and any other pair to invalid; then
determine_mrv folds the absolute reference angle into the period 360deg/m
and returns phase 0 in the closed first or last sixth, phase per/2 in the
closed middle third, and m = -1 otherwise; in particular the pair {4,4}
with an angle in the first 10 or last 10 degrees of the 120-degree period
gives (3, 0) and a 60-degree angle gives (3, 60 degrees). -/
theorem dihedral_classification_C4 :
    (∀ (sys : System) (ic : IC),
      (({(sys.nlist (ic.indexes.getD 1 0)).length,
          (sys.nlist (ic.indexes.getD 2 0)).length} : Finset ℕ) = {4, 4} →
        classify_dihedral sys ic = determine_mrv 3 |ic.value sys.refCoords|) ∧
      (({(sys.nlist (ic.indexes.getD 1 0)).length,
          (sys.nlist (ic.indexes.getD 2 0)).length} : Finset ℕ) = {3, 4} →
        classify_dihedral sys ic = determine_mrv 6 |ic.value sys.refCoords|) ∧
      (({(sys.nlist (ic.indexes.getD 1 0)).length,
          (sys.nlist (ic.indexes.getD 2 0)).length} : Finset ℕ) = {2, 4} →
        classify_dihedral sys ic = determine_mrv 3 |ic.value sys.refCoords|) ∧
      (({(sys.nlist (ic.indexes.getD 1 0)).length,
          (sys.nlist (ic.indexes.getD 2 0)).length} : Finset ℕ) = {3, 3} →
        classify_dihedral sys ic = determine_mrv 2 |ic.value sys.refCoords|) ∧
      (({(sys.nlist (ic.indexes.getD 1 0)).length,
          (sys.nlist (ic.indexes.getD 2 0)).length} : Finset ℕ) = {2, 3} →
        classify_dihedral sys ic = determine_mrv 2 |ic.value sys.refCoords|) ∧
      (({(sys.nlist (ic.indexes.getD 1 0)).length,
          (sys.nlist (ic.indexes.getD 2 0)).length} : Finset ℕ) = {2, 2} →
        classify_dihedral sys ic = determine_mrv 1 |ic.value sys.refCoords|) ∧
      ((({(sys.nlist (ic.indexes.getD 1 0)).length,
          (sys.nlist (ic.indexes.getD 2 0)).length} : Finset ℕ) ≠ {4, 4}) →
       (({(sys.nlist (ic.indexes.getD 1 0)).length,
          (sys.nlist (ic.indexes.getD 2 0)).length} : Finset ℕ) ≠ {3, 4}) →
       (({(sys.nlist (ic.indexes.getD 1 0)).length,
          (sys.nlist (ic.indexes.getD 2 0)).length} : Finset ℕ) ≠ {2, 4}) →
       (({(sys.nlist (ic.indexes.getD 1 0)).length,
          (sys.nlist (ic.indexes.getD 2 0)).length} : Finset ℕ) ≠ {3, 3}) →
       (({(sys.nlist (ic.indexes.getD 1 0)).length,
          (sys.nlist (ic.indexes.getD 2 0)).length} : Finset ℕ) ≠ {2, 3}) →
       (({(sys.nlist (ic.indexes.getD 1 0)).length,
          (sys.nlist (ic.indexes.getD 2 0)).length} : Finset ℕ) ≠ {2, 2}) →
        classify_dihedral sys ic = (-1, 0))) ∧
    (∀ (m : ℕ) (psi : ℝ), 0 < m →
      (((0 ≤ fmod psi (360 * deg / (m : ℝ)) ∧
          fmod psi (360 * deg / (m : ℝ)) ≤ 360 * deg / (m : ℝ) / 6) ∨
        (5 * (360 * deg / (m : ℝ)) / 6 ≤ fmod psi (360 * deg / (m : ℝ)) ∧
          fmod psi (360 * deg / (m : ℝ)) ≤ 360 * deg / (m : ℝ)) →
        determine_mrv m psi = ((m : ℤ), 0)) ∧
      (2 * (360 * deg / (m : ℝ)) / 6 ≤ fmod psi (360 * deg / (m : ℝ)) ∧
          fmod psi (360 * deg / (m : ℝ)) ≤ 4 * (360 * deg / (m : ℝ)) / 6 →
        determine_mrv m psi = ((m : ℤ), 360 * deg / (m : ℝ) / 2)) ∧
      (¬((0 ≤ fmod psi (360 * deg / (m : ℝ)) ∧
          fmod psi (360 * deg / (m : ℝ)) ≤ 360 * deg / (m : ℝ) / 6) ∨
        (5 * (360 * deg / (m : ℝ)) / 6 ≤ fmod psi (360 * deg / (m : ℝ)) ∧
          fmod psi (360 * deg / (m : ℝ)) ≤ 360 * deg / (m : ℝ))) →
       ¬(2 * (360 * deg / (m : ℝ)) / 6 ≤ fmod psi (360 * deg / (m : ℝ)) ∧
          fmod psi (360 * deg / (m : ℝ)) ≤ 4 * (360 * deg / (m : ℝ)) / 6) →
        determine_mrv m psi = (-1, 0)))) ∧
    (∀ psi : ℝ, 0 ≤ psi → psi ≤ 10 →
      determine_mrv 3 (psi * deg) = (3, 0)) ∧
    (∀ psi : ℝ, 110 ≤ psi → psi ≤ 120 →
      determine_mrv 3 (psi * deg) = (3, 0)) ∧
    determine_mrv 3 (60 * deg) = (3, 60 * deg) := by
  refine ⟨?_, ?_, determine_mrv_3_low, determine_mrv_3_high,
    determine_mrv_3_mid⟩
  · intro sys ic
    refine ⟨?_, ?_, ?_, ?_, ?_, ?_, ?_⟩
    · intro h
      simp only [classify_dihedral]
      rw [if_pos h]
    · intro h
      simp only [classify_dihedral]
      rw [if_neg (by rw [h]; decide), if_pos h]
    · intro h
      simp only [classify_dihedral]
      rw [if_neg (by rw [h]; decide), if_neg (by rw [h]; decide), if_pos h]
    · intro h
      simp only [classify_dihedral]
      rw [if_neg (by rw [h]; decide), if_neg (by rw [h]; decide),
        if_neg (by rw [h]; decide), if_pos h]
    · intro h
      simp only [classify_dihedral]
      rw [if_neg (by rw [h]; decide), if_neg (by rw [h]; decide),
        if_neg (by rw [h]; decide), if_neg (by rw [h]; decide), if_pos h]
    · intro h
      simp only [classify_dihedral]
      rw [if_neg (by rw [h]; decide), if_neg (by rw [h]; decide),
        if_neg (by rw [h]; decide), if_neg (by rw [h]; decide),
        if_neg (by rw [h]; decide), if_pos h]
    · intro h1 h2 h3 h4 h5 h6
      simp only [classify_dihedral]
      rw [if_neg h1, if_neg h2, if_neg h3, if_neg h4, if_neg h5, if_neg h6]
  · intro m psi hm
    exact ⟨determine_mrv_first m psi,
      fun h => determine_mrv_middle m psi hm h.1 h.2,
      determine_mrv_invalid m psi⟩

/-- Witness for C4: a concrete dihedral whose central atoms both have four
neighbours and whose reference angle is 60 degrees classifies to
(3, 60 degrees), and concrete angles 5 and 115 degrees classify to (3, 0). -/
theorem dihedral_classification_C4_witness :
    classify_dihedral ⟨[], fun _ => [0, 0, 0, 0], fun _ _ => 0⟩
      ⟨[0, 1, 2, 3], fun _ => 60 * deg, fun _ _ _ => 0, fun _ _ _ _ _ => 0⟩ =
      (3, 60 * deg) ∧
    determine_mrv 3 (5 * deg) = (3, 0) ∧
    determine_mrv 3 (115 * deg) = (3, 0) := by
  refine ⟨?_, ?_, ?_⟩
  · have h := (dihedral_classification_C4.1
      ⟨[], fun _ => [0, 0, 0, 0], fun _ _ => 0⟩
      ⟨[0, 1, 2, 3], fun _ => 60 * deg, fun _ _ _ => 0, fun _ _ _ _ _ => 0⟩).1
      (by decide)
    rw [h]
    show determine_mrv 3 |60 * deg| = (3, 60 * deg)
    rw [abs_of_nonneg (by nlinarith [deg_pos] : (0:ℝ) ≤ 60 * deg)]
    exact dihedral_classification_C4.2.2.2.2
  · exact dihedral_classification_C4.2.2.1 5 (by norm_num) (by norm_num)
  · exact dihedral_classification_C4.2.2.2.1 115 (by norm_num) (by norm_num)

/-- Claim C9: the result of determine_dihedral_potentials is identical for
any two values of the marge2 and marge3 arguments; the classification uses
only the fixed sixth-of-period fractions, so the margin parameters are
inert. -/
theorem margins_inert_C9 (marge2 marge3 marge2b marge3b : ℝ) (sys : System)
    (v : VTerms) :
    determine_dihedral_potentials marge2 marge3 sys v =
      determine_dihedral_potentials marge2b marge3b sys v := rfl

lemma processEntry_name (sys : System) (a b : String × List (Option Term))
    (h : processEntry sys a = some b) : b.1 = a.1 := by
  unfold processEntry at h
  by_cases h1 : hasPrefix a.1 "dihed" = true
  · rw [if_pos h1] at h
    by_cases h2 : dihedDropped sys a.1
    · rw [if_pos h2] at h
      exact Option.noConfusion h
    · rw [if_neg h2] at h
      have hb := Option.some.inj h
      rw [← hb]
  · rw [if_neg h1] at h
    have hb := Option.some.inj h
    rw [← hb]

lemma eq_of_fst_nodup {α β : Type} (v : List (α × β))
    (hnd : (v.map Prod.fst).Nodup) (a b : α × β) (ha : a ∈ v) (hb : b ∈ v)
    (h : a.1 = b.1) : a = b := by
  induction v with
  | nil => exact absurd ha (List.not_mem_nil a)
  | cons c rest ih =>
      simp only [List.map_cons, List.nodup_cons] at hnd
      rcases List.mem_cons.mp ha with ha1 | ha1 <;>
        rcases List.mem_cons.mp hb with hb1 | hb1
      · rw [ha1, hb1]
      · exfalso
        apply hnd.1
        have hb2 : b.1 ∈ List.map Prod.fst rest :=
          List.mem_map_of_mem Prod.fst hb1
        rw [ha1] at h
        rw [h]
        exact hb2
      · exfalso
        apply hnd.1
        have ha2 : a.1 ∈ List.map Prod.fst rest :=
          List.mem_map_of_mem Prod.fst ha1
        rw [hb1] at h
        rw [← h]
        exact ha2
      · exact ih hnd.2 ha1 hb1

/-- Claim C5 amended: for every coordinate-name group of the valence term
map, non-dihedral groups pass through determine_dihedral_potentials
unchanged; for a dihedral group, any invalid instance forces the drop
condition (m mean -1 or positive m standard deviation), the drop condition
removes the whole group from the map (the function is total, so the
condition is recoverable, not an exception), and otherwise every instance
of the group is replaced by a cosine Term carrying the aggregate m and
phase and a force constant set to 0.0. -/
theorem determine_dihedral_C5_amended (marge2 marge3 : ℝ) (sys : System)
    (v : VTerms) (name : String) (slots : List (Option Term))
    (hmem : (name, slots) ∈ v) :
    (hasPrefix name "dihed" = false →
      (name, slots) ∈ determine_dihedral_potentials marge2 marge3 sys v) ∧
    (hasPrefix name "dihed" = true →
      (((-1 : ℝ) ∈ dihedMs sys name → dihedDropped sys name) ∧
       (dihedDropped sys name → (v.map Prod.fst).Nodup →
         ∀ e ∈ determine_dihedral_potentials marge2 marge3 sys v,
           e.1 ≠ name) ∧
       (¬dihedDropped sys name →
         (name, (icsLookup sys name).map (fun ic =>
           some (CosineTerm ic sys.refCoords 0
             (DataArray.mean ⟨dihedRvs sys name, "deg"⟩)
             (DataArray.mean ⟨dihedMs sys name, "au"⟩)))) ∈
           determine_dihedral_potentials marge2 marge3 sys v))) := by
  constructor
  · intro hfalse
    unfold determine_dihedral_potentials
    refine List.mem_filterMap.mpr ⟨(name, slots), hmem, ?_⟩
    unfold processEntry
    simp [hfalse]
  · intro htrue
    refine ⟨?_, ?_, ?_⟩
    · intro hin
      by_cases hall : ∀ x ∈ dihedMs sys name, x = (-1 : ℝ)
      · exact Or.inl (DataArray.mean_const _ _ (-1)
          (List.ne_nil_of_mem hin) hall)
      · push_neg at hall
        obtain ⟨y, hy, hyne⟩ := hall
        exact Or.inr (Or.inl
          (DataArray.std_pos_of_ne _ _ (-1) y hin hy (Ne.symm hyne)))
    · intro hdrop hnd e he heq
      obtain ⟨a, ha, hpa⟩ :=
        List.mem_filterMap.mp (by exact he)
      have hname : a.1 = name := by rw [← processEntry_name sys a e hpa]; exact heq
      have haeq : a = (name, slots) :=
        eq_of_fst_nodup v hnd a (name, slots) ha hmem hname
      rw [haeq] at hpa
      unfold processEntry at hpa
      rw [if_pos (by simpa using htrue), if_pos (by simpa using hdrop)] at hpa
      exact Option.noConfusion hpa
    · intro hkeep
      unfold determine_dihedral_potentials
      refine List.mem_filterMap.mpr ⟨(name, slots), hmem, ?_⟩
      unfold processEntry
      rw [if_pos (by simpa using htrue), if_neg (by simpa using hkeep)]

/-- Witness for C5 at a concrete system: a non-dihedral group passes through
determine_dihedral_potentials unchanged. -/
theorem determine_dihedral_C5_witness :
    ("bond/x", ([] : List (Option Term))) ∈
      determine_dihedral_potentials 0 0 ⟨[], fun _ => [], fun _ _ => 0⟩
        [("bond/x", [])] :=
  (determine_dihedral_C5_amended 0 0 ⟨[], fun _ => [], fun _ _ => 0⟩
    [("bond/x", [])] "bond/x" [] (List.mem_cons_self _ _)).1 (by decide)

/-- A concrete dihedral internal coordinate: central atoms 1 and 2,
reference angle 0. -/
noncomputable def dihedExampleIC : IC :=
  ⟨[0, 1, 2, 3], fun _ => 0, fun _ _ _ => 0, fun _ _ _ _ _ => 0⟩

/-- A concrete system with one dihedral name whose central atoms both have
four neighbours. -/
noncomputable def dihedExampleSys : System :=
  ⟨[("dihed/a", [dihedExampleIC])], fun _ => [0, 0, 0, 0], fun _ _ => 0⟩

lemma dihedExample_lookup :
    icsLookup dihedExampleSys "dihed/a" = [dihedExampleIC] := rfl

lemma dihedExample_mrv : determine_mrv 3 (0 : ℝ) = (3, 0) := by
  have hv : fmod 0 (360 * deg / ((3 : ℕ) : ℝ)) = 0 := by
    rw [per3_cast]
    exact fmod_eq_self 0 _ le_rfl (by nlinarith [deg_pos])
  have h := determine_mrv_first 3 0 ?_
  · simpa using h
  · rw [hv, per3_cast]
    left
    exact ⟨le_rfl, by nlinarith [deg_pos]⟩

lemma dihedExample_classify :
    classify_dihedral dihedExampleSys dihedExampleIC = (3, 0) := by
  simp only [classify_dihedral]
  rw [if_pos (by decide)]
  show determine_mrv 3 |(0 : ℝ)| = (3, 0)
  rw [abs_zero]
  exact dihedExample_mrv

lemma dihedExample_ms : dihedMs dihedExampleSys "dihed/a" = [3] := by
  unfold dihedMs
  rw [dihedExample_lookup]
  simp [dihedExample_classify]

lemma dihedExample_rvs : dihedRvs dihedExampleSys "dihed/a" = [0] := by
  unfold dihedRvs
  rw [dihedExample_lookup]
  simp [dihedExample_classify]

lemma dihedExample_not_dropped : ¬ dihedDropped dihedExampleSys "dihed/a" := by
  unfold dihedDropped
  rw [dihedExample_ms, dihedExample_rvs]
  have hm : DataArray.mean ⟨[(3 : ℝ)], "au"⟩ = 3 := by
    simp [DataArray.mean]
  have hs1 : DataArray.std ⟨[(3 : ℝ)], "au"⟩ = 0 := by
    norm_num [DataArray.std, DataArray.mean, Real.sqrt_zero]
  have hs2 : DataArray.std ⟨[(0 : ℝ)], "deg"⟩ = 0 := by
    norm_num [DataArray.std, DataArray.mean, Real.sqrt_zero]
  rw [hm, hs1, hs2]
  norm_num

/-- Counterexample to Claim C5 as stated: on a concrete system whose single
dihedral group survives classification, the replacement cosine Term carries
force constant 0.0 (CosineTerm(ic, coords, 0.0, rv.mean, m.mean),
model.py line 538), not an unset (None) force constant. -/
theorem determine_dihedral_C5_counterexample :
    ((((determine_dihedral_potentials (15 * deg) (15 * deg) dihedExampleSys
          [("dihed/a", [none])]).headD ("", [])).2.headD none).bind
        (fun t => t.k)) = some 0 ∧
    some (0 : ℝ) ≠ (none : Option ℝ) := by
  constructor
  · have hproc : processEntry dihedExampleSys ("dihed/a", [none]) =
        some ("dihed/a", [some (CosineTerm dihedExampleIC
          dihedExampleSys.refCoords 0
          (DataArray.mean ⟨dihedRvs dihedExampleSys "dihed/a", "deg"⟩)
          (DataArray.mean ⟨dihedMs dihedExampleSys "dihed/a", "au"⟩))]) := by
      simp only [processEntry]
      rw [if_pos (by decide), if_neg dihedExample_not_dropped,
        dihedExample_lookup]
      rfl
    unfold determine_dihedral_potentials
    simp only [List.filterMap_cons, hproc, List.filterMap_nil]
    simp [CosineTerm]
  · simp

lemma list_map_eq_self {α : Type} (l : List α) (f : α → α)
    (h : ∀ a ∈ l, f a = a) : l.map f = l := by
  induction l with
  | nil => rfl
  | cons a rest ih =>
      simp only [List.map_cons]
      rw [h a (List.mem_cons_self a rest),
        ih (fun b hb => h b (List.mem_cons_of_mem a hb))]

lemma omean_const_some (l : List (Option ℝ)) (c : ℝ) (hne : l ≠ [])
    (h : ∀ x ∈ l, x = some c) : omean l = some c := by
  unfold omean
  rw [if_pos]
  · congr 1
    apply DataArray.mean_const
    · simpa using hne
    · intro x hx
      obtain ⟨y, hy, hyx⟩ := List.mem_map.mp hx
      rw [h y hy] at hyx
      simpa using hyx.symm
  · rw [List.all_eq_true]
    intro x hx
    rw [h x hx]
    rfl

lemma lookup_get_fftable (v : VTerms) (hnd : (v.map Prod.fst).Nodup)
    (name : String) (slots : List (Option Term))
    (hmem : (name, slots) ∈ v) :
    ffLookup (ValencePart.get_fftable v) name =
      some (omean (slots.map (fun s => s.bind (fun t => t.k))),
        omean (slots.map (fun s => s.bind (fun t => t.q0)))) := by
  induction v with
  | nil => cases hmem
  | cons c rest ih =>
      simp only [List.map_cons, List.nodup_cons] at hnd
      rcases List.mem_cons.mp hmem with h | h
      · subst h
        unfold ValencePart.get_fftable ffLookup
        simp only [List.map_cons]
        rw [List.find?_cons_of_pos _ (by simp)]
        rfl
      · have hcne : ¬(c.1 = name) := by
          intro hc
          apply hnd.1
          rw [hc]
          exact List.mem_map_of_mem Prod.fst h
        unfold ValencePart.get_fftable ffLookup
        simp only [List.map_cons]
        rw [List.find?_cons_of_neg _ (by simpa using hcne)]
        exact ih hnd.2 h

lemma term_set_self (t : Term) (k0 q00 : Option ℝ) (hk : t.k = k0)
    (hq : t.q0 = q00) : { t with k := k0, q0 := q00 } = t := by
  cases t
  simp only at hk hq
  rw [← hk, ← hq]

/-- Claim C7 amended: update_fftable(get_fftable v) leaves every Term of v
unchanged provided the coordinate names are distinct and, within each name
group, all Terms carry the same set force constant and the same set rest
value (the FFTable stores one aggregated value per name, so the round trip
collapses a group to its mean). -/
theorem update_get_roundtrip_C7_amended (v : VTerms)
    (hnd : (v.map Prod.fst).Nodup)
    (huni : ∀ e ∈ v, ∃ kc q0c : ℝ, ∀ s ∈ e.2, ∃ t : Term,
      s = some t ∧ t.k = some kc ∧ t.q0 = some q0c) :
    ValencePart.update_fftable (ValencePart.get_fftable v) v = v := by
  unfold ValencePart.update_fftable
  apply list_map_eq_self
  intro e he
  obtain ⟨kc, q0c, hs⟩ := huni e he
  obtain ⟨name, slots⟩ := e
  rw [lookup_get_fftable v hnd name slots he]
  by_cases hslots : slots = []
  · subst hslots
    rfl
  · have homk : omean (slots.map (fun s => s.bind (fun t => t.k))) =
        some kc := by
      apply omean_const_some _ kc (by simpa using hslots)
      intro x hx
      obtain ⟨s, hsmem, hsx⟩ := List.mem_map.mp hx
      obtain ⟨t, hts, htk, htq⟩ := hs s hsmem
      rw [← hsx, hts]
      simpa using htk
    have homq : omean (slots.map (fun s => s.bind (fun t => t.q0))) =
        some q0c := by
      apply omean_const_some _ q0c (by simpa using hslots)
      intro x hx
      obtain ⟨s, hsmem, hsx⟩ := List.mem_map.mp hx
      obtain ⟨t, hts, htk, htq⟩ := hs s hsmem
      rw [← hsx, hts]
      simpa using htq
    rw [homk, homq]
    simp only [Prod.mk.injEq, true_and]
    apply list_map_eq_self
    intro s hsmem
    obtain ⟨t, hts, htk, htq⟩ := hs s hsmem
    rw [hts]
    show some { t with k := some kc, q0 := some q0c } = some t
    rw [term_set_self t (some kc) (some q0c) htk htq]

/-- A dummy bond internal coordinate for concrete valence parts. -/
noncomputable def icZero : IC :=
  ⟨[0, 1], fun _ => 0, fun _ _ _ => 0, fun _ _ _ _ _ => 0⟩

/-- The all-zero coordinate array. -/
noncomputable def zeroCoords : Coords := fun _ _ => 0

/-- A valence part whose single name group holds two Terms with different
force constants (0 and 2) and equal rest values. -/
noncomputable def roundtripExample : VTerms :=
  [("bond/a", [some (HarmonicTerm icZero zeroCoords (some 0) (some 1)),
    some (HarmonicTerm icZero zeroCoords (some 2) (some 1))])]

/-- Counterexample to Claim C7 as stated: on a part whose group holds Terms
with set but distinct force constants 0 and 2, the round trip
update_fftable(get_fftable part) overwrites both with the aggregated value
1, so the first Term's force constant changes from 0 to 1. -/
theorem update_get_roundtrip_C7_counterexample :
    ((((ValencePart.update_fftable (ValencePart.get_fftable roundtripExample)
          roundtripExample).headD ("", [])).2.headD none).bind
        (fun t => t.k)) = some 1 ∧
    (((roundtripExample.headD ("", [])).2.headD none).bind
        (fun t => t.k)) = some 0 ∧
    (1 : ℝ) ≠ 0 := by
  refine ⟨?_, by simp [roundtripExample, HarmonicTerm], by norm_num⟩
  have hmean : omean [some (0:ℝ), some 2] = some 1 := by
    unfold omean
    rw [if_pos (by rfl)]
    norm_num [DataArray.mean]
  have hmean2 : omean [some (1:ℝ), some 1] = some 1 := by
    unfold omean
    rw [if_pos (by rfl)]
    norm_num [DataArray.mean]
  have hlook : ffLookup (ValencePart.get_fftable
      [("bond/a", [some (HarmonicTerm icZero zeroCoords (some 0) (some 1)),
        some (HarmonicTerm icZero zeroCoords (some 2) (some 1))])])
      "bond/a" = some (some 1, some 1) := by
    rw [show ValencePart.get_fftable
        [("bond/a", [some (HarmonicTerm icZero zeroCoords (some 0) (some 1)),
          some (HarmonicTerm icZero zeroCoords (some 2) (some 1))])] =
      [("bond/a", ⟨[some 0, some 2], [some 1, some 1], []⟩)] from rfl]
    unfold ffLookup
    rw [List.find?_cons_of_pos _ (by simp)]
    simp only [Option.map_some']
    rw [hmean, hmean2]
  unfold ValencePart.update_fftable
  simp only [roundtripExample, List.map_cons, List.map_nil]
  rw [hlook]
  simp [HarmonicTerm]

/-- A valence part whose single group carries one Term with set parameters. -/
noncomputable def roundtripWitnessV : VTerms :=
  [("bond/b", [some (HarmonicTerm icZero zeroCoords (some 1) (some 2))])]

/-- Witness for C7: on a part whose groups are parameter-uniform, the round
trip update_fftable(get_fftable part) is the identity. -/
theorem update_get_roundtrip_C7_witness :
    ValencePart.update_fftable (ValencePart.get_fftable roundtripWitnessV)
      roundtripWitnessV = roundtripWitnessV := by
  apply update_get_roundtrip_C7_amended
  · simp [roundtripWitnessV]
  · intro e he
    simp only [roundtripWitnessV, List.mem_singleton] at he
    subst he
    refine ⟨1, 2, ?_⟩
    intro s hs
    simp only [List.mem_singleton] at hs
    subst hs
    exact ⟨HarmonicTerm icZero zeroCoords (some 1) (some 2), rfl, rfl, rfl⟩

lemma slotsEnergy_none (slots : List (Option Term)) (h : none ∈ slots)
    (c : Coords) : slotsEnergy slots c = none := by
  induction slots with
  | nil => cases h
  | cons s rest ih =>
      cases s with
      | none => rfl
      | some t =>
          have hr : (none : Option Term) ∈ rest := by
            rcases List.mem_cons.mp h with h1 | h1
            · exact absurd h1 (by simp)
            · exact h1
          simp [slotsEnergy, ih hr]

lemma slotsEnergy_isSome (slots : List (Option Term))
    (h : ∀ s ∈ slots, s.isSome = true) (c : Coords) :
    (slotsEnergy slots c).isSome = true := by
  induction slots with
  | nil => rfl
  | cons s rest ih =>
      cases s with
      | none => exact absurd (h none (List.mem_cons_self _ _)) (by simp)
      | some t =>
          have hi := ih (fun x hx => h x (List.mem_cons_of_mem _ hx))
          simp only [slotsEnergy]
          cases hr : slotsEnergy rest c with
          | none => rw [hr] at hi; exact absurd hi (by simp)
          | some x => rfl

lemma termList_energy_none (v : VTerms) (c : Coords)
    (e : String × List (Option Term)) (he : e ∈ v) (hn : none ∈ e.2) :
    TermListPot.calc_energy v c = none := by
  induction v with
  | nil => cases he
  | cons f rest ih =>
      rcases List.mem_cons.mp he with h1 | h1
      · subst h1
        simp [TermListPot.calc_energy, slotsEnergy_none e.2 hn c]
      · simp only [TermListPot.calc_energy, ih h1]
        cases slotsEnergy f.2 c <;> rfl

lemma termList_energy_isSome (v : VTerms) (c : Coords)
    (h : ∀ e ∈ v, ∀ s ∈ e.2, s.isSome = true) :
    (TermListPot.calc_energy v c).isSome = true := by
  induction v with
  | nil => rfl
  | cons f rest ih =>
      have hf := slotsEnergy_isSome f.2 (h f (List.mem_cons_self _ _)) c
      have hr := ih (fun e he => h e (List.mem_cons_of_mem _ he))
      simp only [TermListPot.calc_energy]
      cases hsf : slotsEnergy f.2 c with
      | none => rw [hsf] at hf; exact absurd hf (by simp)
      | some x =>
          cases hsr : TermListPot.calc_energy rest c with
          | none => rw [hsr] at hr; exact absurd hr (by simp)
          | some y => rfl

lemma slotsGradient_none (slots : List (Option Term)) (h : none ∈ slots)
    (c : Coords) : slotsGradient slots c = none := by
  induction slots with
  | nil => cases h
  | cons s rest ih =>
      cases s with
      | none => rfl
      | some t =>
          have hr : (none : Option Term) ∈ rest := by
            rcases List.mem_cons.mp h with h1 | h1
            · exact absurd h1 (by simp)
            · exact h1
          simp [slotsGradient, ih hr]

lemma slotsGradient_isSome (slots : List (Option Term))
    (h : ∀ s ∈ slots, s.isSome = true) (c : Coords) :
    (slotsGradient slots c).isSome = true := by
  induction slots with
  | nil => rfl
  | cons s rest ih =>
      cases s with
      | none => exact absurd (h none (List.mem_cons_self _ _)) (by simp)
      | some t =>
          have hi := ih (fun x hx => h x (List.mem_cons_of_mem _ hx))
          simp only [slotsGradient]
          cases hr : slotsGradient rest c with
          | none => rw [hr] at hi; exact absurd hi (by simp)
          | some x => rfl

lemma termList_gradient_none (v : VTerms) (c : Coords)
    (e : String × List (Option Term)) (he : e ∈ v) (hn : none ∈ e.2) :
    TermListPot.calc_gradient v c = none := by
  induction v with
  | nil => cases he
  | cons f rest ih =>
      rcases List.mem_cons.mp he with h1 | h1
      · subst h1
        simp [TermListPot.calc_gradient, slotsGradient_none e.2 hn c]
      · simp only [TermListPot.calc_gradient, ih h1]
        cases slotsGradient f.2 c <;> rfl

lemma termList_gradient_isSome (v : VTerms) (c : Coords)
    (h : ∀ e ∈ v, ∀ s ∈ e.2, s.isSome = true) :
    (TermListPot.calc_gradient v c).isSome = true := by
  induction v with
  | nil => rfl
  | cons f rest ih =>
      have hf := slotsGradient_isSome f.2 (h f (List.mem_cons_self _ _)) c
      have hr := ih (fun e he => h e (List.mem_cons_of_mem _ he))
      simp only [TermListPot.calc_gradient]
      cases hsf : slotsGradient f.2 c with
      | none => rw [hsf] at hf; exact absurd hf (by simp)
      | some x =>
          cases hsr : TermListPot.calc_gradient rest c with
          | none => rw [hsr] at hr; exact absurd hr (by simp)
          | some y => rfl

lemma slotsHessian_none (slots : List (Option Term)) (h : none ∈ slots)
    (c : Coords) : slotsHessian slots c = none := by
  induction slots with
  | nil => cases h
  | cons s rest ih =>
      cases s with
      | none => rfl
      | some t =>
          have hr : (none : Option Term) ∈ rest := by
            rcases List.mem_cons.mp h with h1 | h1
            · exact absurd h1 (by simp)
            · exact h1
          simp [slotsHessian, ih hr]

lemma slotsHessian_isSome (slots : List (Option Term))
    (h : ∀ s ∈ slots, s.isSome = true) (c : Coords) :
    (slotsHessian slots c).isSome = true := by
  induction slots with
  | nil => rfl
  | cons s rest ih =>
      cases s with
      | none => exact absurd (h none (List.mem_cons_self _ _)) (by simp)
      | some t =>
          have hi := ih (fun x hx => h x (List.mem_cons_of_mem _ hx))
          simp only [slotsHessian]
          cases hr : slotsHessian rest c with
          | none => rw [hr] at hi; exact absurd hi (by simp)
          | some x => rfl

lemma termList_hessian_none (v : VTerms) (c : Coords)
    (e : String × List (Option Term)) (he : e ∈ v) (hn : none ∈ e.2) :
    TermListPot.calc_hessian v c = none := by
  induction v with
  | nil => cases he
  | cons f rest ih =>
      rcases List.mem_cons.mp he with h1 | h1
      · subst h1
        simp [TermListPot.calc_hessian, slotsHessian_none e.2 hn c]
      · simp only [TermListPot.calc_hessian, ih h1]
        cases slotsHessian f.2 c <;> rfl

lemma termList_hessian_isSome (v : VTerms) (c : Coords)
    (h : ∀ e ∈ v, ∀ s ∈ e.2, s.isSome = true) :
    (TermListPot.calc_hessian v c).isSome = true := by
  induction v with
  | nil => rfl
  | cons f rest ih =>
      have hf := slotsHessian_isSome f.2 (h f (List.mem_cons_self _ _)) c
      have hr := ih (fun e he => h e (List.mem_cons_of_mem _ he))
      simp only [TermListPot.calc_hessian]
      cases hsf : slotsHessian f.2 c with
      | none => rw [hsf] at hf; exact absurd hf (by simp)
      | some x =>
          cases hsr : TermListPot.calc_hessian rest c with
          | none => rw [hsr] at hr; exact absurd hr (by simp)
          | some y => rfl

lemma from_system_mem_dihed (sys : System) (name : String) (ics : List IC)
    (hmem : (name, ics) ∈ sys.ics) (hpre : hasPrefix name "dihed" = true) :
    (name, ics.map (fun _ => (none : Option Term))) ∈
      ValencePart.from_system sys := by
  unfold ValencePart.from_system selectedIcs
  apply List.mem_map.mpr
  refine ⟨(name, ics), List.mem_filter.mpr ⟨hmem, by simp [hpre]⟩, ?_⟩
  simp [hpre]

/-- Claim C10 amended: after ValencePart.from_system, every dihedral slot
holds a None placeholder; if the system has a dihedral coordinate name with
at least one instance then calc_energy, calc_gradient and calc_hessian all
fail on the None placeholder; if the system has no dihedral names, all
three evaluations are well defined immediately after construction. -/
theorem from_system_placeholder_C10_amended (sys : System) (c : Coords) :
    (∀ e ∈ ValencePart.from_system sys, hasPrefix e.1 "dihed" = true →
      ∀ s ∈ e.2, s = none) ∧
    ((∃ e ∈ sys.ics, hasPrefix e.1 "dihed" = true ∧ e.2 ≠ []) →
      TermListPot.calc_energy (ValencePart.from_system sys) c = none ∧
      TermListPot.calc_gradient (ValencePart.from_system sys) c = none ∧
      TermListPot.calc_hessian (ValencePart.from_system sys) c = none) ∧
    ((∀ e ∈ sys.ics, hasPrefix e.1 "dihed" = false) →
      (TermListPot.calc_energy (ValencePart.from_system sys) c).isSome = true ∧
      (TermListPot.calc_gradient (ValencePart.from_system sys) c).isSome = true ∧
      (TermListPot.calc_hessian (ValencePart.from_system sys) c).isSome =
        true) := by
  refine ⟨?_, ?_, ?_⟩
  · intro e he hpre s hs
    unfold ValencePart.from_system at he
    obtain ⟨a, ha, hae⟩ := List.mem_map.mp he
    have h1 : e.1 = a.1 := by rw [← hae]
    rw [h1] at hpre
    rw [← hae] at hs
    simp only [hpre, if_pos] at hs
    obtain ⟨x, hx, hxs⟩ := List.mem_map.mp hs
    exact hxs.symm
  · rintro ⟨e, he, hpre, hne⟩
    have hin := from_system_mem_dihed sys e.1 e.2 (by simpa using he) hpre
    obtain ⟨x, hx⟩ := List.exists_mem_of_ne_nil e.2 hne
    have hnone : (none : Option Term) ∈ e.2.map (fun _ => (none : Option Term)) :=
      List.mem_map.mpr ⟨x, hx, rfl⟩
    exact ⟨termList_energy_none _ c _ hin hnone,
      termList_gradient_none _ c _ hin hnone,
      termList_hessian_none _ c _ hin hnone⟩
  · intro hno
    have hall : ∀ e ∈ ValencePart.from_system sys, ∀ s ∈ e.2,
        s.isSome = true := by
      intro e he s hs
      unfold ValencePart.from_system at he
      obtain ⟨a, ha, hae⟩ := List.mem_map.mp he
      have hamem : a ∈ sys.ics := (List.mem_filter.mp ha).1
      have hfalse : hasPrefix a.1 "dihed" = false := hno a hamem
      rw [← hae] at hs
      simp only [hfalse] at hs
      simp only [Bool.false_eq_true, if_false] at hs
      obtain ⟨x, hx, hxs⟩ := List.mem_map.mp hs
      rw [← hxs]
      rfl
    exact ⟨termList_energy_isSome _ c hall,
      termList_gradient_isSome _ c hall,
      termList_hessian_isSome _ c hall⟩

/-- A system whose only coordinate name is a dihedral with no instances. -/
noncomputable def c10CexSys : System :=
  ⟨[("dihed/x", [])], fun _ => [], fun _ _ => 0⟩

/-- Counterexample to Claim C10 as stated: a system containing a dihedral
coordinate name whose instance list is empty produces no None slot, so the
valence evaluation succeeds immediately after from_system even though a
dihedral coordinate name is present. -/
theorem from_system_placeholder_C10_counterexample :
    (∃ e ∈ c10CexSys.ics, hasPrefix e.1 "dihed" = true) ∧
    (TermListPot.calc_energy (ValencePart.from_system c10CexSys)
      zeroCoords).isSome = true ∧
    (TermListPot.calc_gradient (ValencePart.from_system c10CexSys)
      zeroCoords).isSome = true ∧
    (TermListPot.calc_hessian (ValencePart.from_system c10CexSys)
      zeroCoords).isSome = true := by
  refine ⟨⟨("dihed/x", []), List.mem_cons_self _ _, by decide⟩, ?_, ?_, ?_⟩
  · rw [show ValencePart.from_system c10CexSys = [("dihed/x", [])] from rfl]
    rfl
  · rw [show ValencePart.from_system c10CexSys = [("dihed/x", [])] from rfl]
    rfl
  · rw [show ValencePart.from_system c10CexSys = [("dihed/x", [])] from rfl]
    rfl

/-- A system with a single bond coordinate name. -/
noncomputable def c10WitnessSys : System :=
  ⟨[("bond/y", [icZero])], fun _ => [], fun _ _ => 0⟩

/-- Witness for C10: on a system with no dihedral coordinate names, the
valence evaluation is defined immediately after from_system. -/
theorem from_system_placeholder_C10_witness :
    (TermListPot.calc_energy (ValencePart.from_system c10WitnessSys)
      zeroCoords).isSome = true ∧
    (TermListPot.calc_gradient (ValencePart.from_system c10WitnessSys)
      zeroCoords).isSome = true ∧
    (TermListPot.calc_hessian (ValencePart.from_system c10WitnessSys)
      zeroCoords).isSome = true := by
  apply (from_system_placeholder_C10_amended c10WitnessSys zeroCoords).2.2
  intro e he
  have : e = ("bond/y", [icZero]) := by
    simpa [c10CexSys, c10WitnessSys] using he
  rw [this]
  decide
